import Mathlib

/-!
Verification of the ffcmodel time-series device-state store
(src/lib/ffcmodel.js) against its natural-language specification.

The development shallowly embeds the store's core paths:

* the record codec (protobuf-style varint payload prefixed by a big-endian
  CRC-32, as built by persistDevState.serializeDevState and checked by
  copyMetricsFromFile.chkcrc);
* the write path (persistDevState / updateLastGoodValue /
  saveDevStateAndUpdateIndex), modelled as explicit state passing over the
  per-device last-good-value hash and the block/device indexes, with an
  explicit failure schedule for index-store commands and explicit outcomes
  for each file-system step;
* the housekeeping path (removeBlocksAfter / archiveAgedBlocks /
  archiveDeviceBlock) over a multi-device index state;
* the projection path (getBlocksBackwards / filterAndSortFileList /
  copyMetricsFromFile / projectMetricsFromSortedFiles / projectMetrics)
  over a per-device store of block directories.

JavaScript callback chains are translated into sequential Lean code that
returns Except values; places where the source drops an error on the floor
are translated faithfully (the dropped error simply does not influence the
result), since several claims are precisely about those spots.
-/

deriving instance DecidableEq for Except

namespace Ffc

/-- Errors are carried as plain messages, mirroring the single string-message
error channel of the source. -/
abbrev Err := String

/-! ## Data model: DevState records (data/dev-state.proto) -/

/-- A metric of a device state: proto3 message metric with fields
id (uint32), status (int32), value (int32), scale (int32) and an
optional timestamp (uint32) that is only put on the wire when the
caller supplied it. -/
structure Metric where
  id : Nat
  status : Int
  value : Int
  scale : Int
  timestamp : Option Nat
deriving DecidableEq, Repr

/-- A device state: proto3 message DevState with fields devid (uint32),
timestamp (uint32) and the repeated metric field. -/
structure DevState where
  devid : Nat
  timestamp : Nat
  metrics : List Metric
deriving DecidableEq, Repr

/-- Range validity of one metric: uint32 fields below 2^32 and int32 fields
inside the signed 32-bit range, as the proto schema requires. -/
def Metric.valid (m : Metric) : Prop :=
  m.id < 2 ^ 32 ∧
  -2 ^ 31 ≤ m.status ∧ m.status < 2 ^ 31 ∧
  -2 ^ 31 ≤ m.value ∧ m.value < 2 ^ 31 ∧
  -2 ^ 31 ≤ m.scale ∧ m.scale < 2 ^ 31 ∧
  (∀ ts ∈ m.timestamp, ts < 2 ^ 32)

instance (m : Metric) : Decidable m.valid := by
  unfold Metric.valid; infer_instance

/-- Range validity of a device state. -/
def DevState.valid (s : DevState) : Prop :=
  s.devid < 2 ^ 32 ∧ s.timestamp < 2 ^ 32 ∧ ∀ m ∈ s.metrics, m.valid

instance (s : DevState) : Decidable s.valid := by
  unfold DevState.valid; infer_instance

/-! ## Record codec (persistDevState.serializeDevState / copyMetricsFromFile)

Bytes are modelled as natural numbers; every byte the encoder emits is
below 256. The payload is the protobuf wire encoding of DevState, and the
stored record is the 4-byte big-endian CRC-32 of the payload followed by
the payload. -/

/-- Protobuf base-128 varint encoding, least significant group first.
The fuel argument only serves structural recursion; fuel n suffices for
encoding n. -/
def encodeVarintAux : Nat → Nat → List Nat
  | 0, n => [n % 128]
  | fuel + 1, n =>
    if n < 128 then [n] else (n % 128 + 128) :: encodeVarintAux fuel (n / 128)

/-- Protobuf varint encoding of a natural number. -/
def encodeVarint (n : Nat) : List Nat := encodeVarintAux n n

/-- Protobuf varint decoding: returns the value and the unconsumed tail. -/
def decodeVarint : List Nat → Option (Nat × List Nat)
  | [] => none
  | b :: rest =>
    if b < 128 then some (b, rest)
    else
      match decodeVarint rest with
      | some (n, rest') => some (n * 128 + (b - 128), rest')
      | none => none

/-- The unsigned 64-bit varint value protobuf writers emit for an int32:
negative values are sign-extended to 64 bits (ten wire bytes). -/
def int32ToVarintVal (v : Int) : Nat :=
  if v < 0 then (v + 2 ^ 64).toNat else v.toNat

/-- The int32 a protobuf reader recovers from a varint value: the low
32 bits, interpreted as a signed two's-complement number. -/
def varintValToInt32 (n : Nat) : Int :=
  if n % 2 ^ 32 < 2 ^ 31 then ((n % 2 ^ 32 : Nat) : Int)
  else ((n % 2 ^ 32 : Nat) : Int) - 2 ^ 32

/-- Wire tag of a field: field number shifted left by three, plus the wire
type. -/
def encodeTag (field wire : Nat) : List Nat := encodeVarint (field * 8 + wire)

/-- Wire encoding of the body of one metric message, fields written in
declaration order; the optional timestamp is only written when present. -/
def encodeMetricBody (m : Metric) : List Nat :=
  encodeTag 1 0 ++ encodeVarint m.id ++
  encodeTag 2 0 ++ encodeVarint (int32ToVarintVal m.status) ++
  encodeTag 3 0 ++ encodeVarint (int32ToVarintVal m.value) ++
  encodeTag 4 0 ++ encodeVarint (int32ToVarintVal m.scale) ++
  (match m.timestamp with
   | some ts => encodeTag 5 0 ++ encodeVarint ts
   | none => [])

/-- Wire encoding of a whole DevState: devid, timestamp, then each metric as
a length-delimited sub-message. -/
def encodeDevState (s : DevState) : List Nat :=
  encodeTag 1 0 ++ encodeVarint s.devid ++
  encodeTag 2 0 ++ encodeVarint s.timestamp ++
  (s.metrics.map fun m =>
    encodeTag 3 2 ++ encodeVarint (encodeMetricBody m).length ++ encodeMetricBody m).flatten

/-- Skipping an unknown field of the given wire type, as reader.skipType
does. -/
def skipWire (wire : Nat) (bs : List Nat) : Option (List Nat) :=
  if wire = 0 then (decodeVarint bs).map (·.2)
  else if wire = 1 then (if 8 ≤ bs.length then some (bs.drop 8) else none)
  else if wire = 2 then
    match decodeVarint bs with
    | some (len, rest) => if len ≤ rest.length then some (rest.drop len) else none
    | none => none
  else if wire = 5 then (if 4 ≤ bs.length then some (bs.drop 4) else none)
  else none

/-- The metric with all proto3 default field values. -/
def defaultMetric : Metric := ⟨0, 0, 0, 0, none⟩

/-- Decoding loop for a metric message body: read a tag, dispatch on the
field number, skip unknown fields. Fuel bounds the number of iterations;
each iteration consumes at least one byte, so fuel equal to the byte count
always suffices. -/
def decodeMetricLoop (fuel : Nat) (bs : List Nat) (acc : Metric) : Option Metric :=
  match bs with
  | [] => some acc
  | _ :: _ =>
    match fuel with
    | 0 => none
    | fuel + 1 =>
      match decodeVarint bs with
      | none => none
      | some (tag, rest) =>
        if tag / 8 = 1 then
          match decodeVarint rest with
          | some (v, r) => decodeMetricLoop fuel r { acc with id := v % 2 ^ 32 }
          | none => none
        else if tag / 8 = 2 then
          match decodeVarint rest with
          | some (v, r) => decodeMetricLoop fuel r { acc with status := varintValToInt32 v }
          | none => none
        else if tag / 8 = 3 then
          match decodeVarint rest with
          | some (v, r) => decodeMetricLoop fuel r { acc with value := varintValToInt32 v }
          | none => none
        else if tag / 8 = 4 then
          match decodeVarint rest with
          | some (v, r) => decodeMetricLoop fuel r { acc with scale := varintValToInt32 v }
          | none => none
        else if tag / 8 = 5 then
          match decodeVarint rest with
          | some (v, r) => decodeMetricLoop fuel r { acc with timestamp := some (v % 2 ^ 32) }
          | none => none
        else
          match skipWire (tag % 8) rest with
          | some r => decodeMetricLoop fuel r acc
          | none => none

/-- Decoding loop for the DevState message: fields 1 and 2 are uint32
varints, field 3 is a length-delimited metric appended to the list. -/
def decodeDevStateLoop (fuel : Nat) (bs : List Nat) (acc : DevState) : Option DevState :=
  match bs with
  | [] => some acc
  | _ :: _ =>
    match fuel with
    | 0 => none
    | fuel + 1 =>
      match decodeVarint bs with
      | none => none
      | some (tag, rest) =>
        if tag / 8 = 1 then
          match decodeVarint rest with
          | some (v, r) => decodeDevStateLoop fuel r { acc with devid := v % 2 ^ 32 }
          | none => none
        else if tag / 8 = 2 then
          match decodeVarint rest with
          | some (v, r) => decodeDevStateLoop fuel r { acc with timestamp := v % 2 ^ 32 }
          | none => none
        else if tag / 8 = 3 then
          match decodeVarint rest with
          | some (len, r) =>
            if len ≤ r.length then
              match decodeMetricLoop (r.take len).length (r.take len) defaultMetric with
              | some m =>
                decodeDevStateLoop fuel (r.drop len) { acc with metrics := acc.metrics ++ [m] }
              | none => none
            else none
          | none => none
        else
          match skipWire (tag % 8) rest with
          | some r => decodeDevStateLoop fuel r acc
          | none => none

/-- spec.decode on a payload buffer. -/
def decodeDevState (bs : List Nat) : Option DevState :=
  decodeDevStateLoop bs.length bs ⟨0, 0, []⟩

/-! ### CRC-32 (the crc package's crc32, IEEE reflected polynomial) -/

/-- One shift step of the bitwise reflected CRC-32. -/
def crcStep (c : Nat) : Nat :=
  if c % 2 = 1 then (c / 2) ^^^ 0xEDB88320 else c / 2

/-- Fold one byte into the CRC accumulator. -/
def crcByte (c b : Nat) : Nat := crcStep^[8] (c ^^^ b)

/-- CRC-32 of a byte list. -/
def crc32 (data : List Nat) : Nat :=
  (data.foldl crcByte 0xFFFFFFFF) ^^^ 0xFFFFFFFF

/-- JavaScript ToInt32: reduce modulo 2^32 and interpret as signed. -/
def toInt32 (n : Nat) : Int :=
  if n % 2 ^ 32 < 2 ^ 31 then ((n % 2 ^ 32 : Nat) : Int)
  else ((n % 2 ^ 32 : Nat) : Int) - 2 ^ 32

/-- JavaScript signed right shift on a number: arithmetic shift of the
ToInt32 value, which is flooring division by a power of two (Int division
by a positive divisor floors). -/
def jsShr32 (n s : Nat) : Int := toInt32 n / 2 ^ s

/-- Storing an integer into a Uint8Array cell keeps the value modulo 256. -/
def u8 (x : Int) : Nat := (x % 256).toNat

/-- The 4-byte checksum prefix written by serializeDevState:
chksumArray i = chksum shifted right by 8*(3-i) bits, truncated to a byte;
most significant byte first. -/
def chksumArray (c : Nat) : List Nat :=
  (List.range 4).map fun i => u8 (jsShr32 c (8 * (3 - i)))

/-- serializeDevState: the stored record is the big-endian CRC-32 of the
payload followed by the payload. -/
def serializeDevState (s : DevState) : List Nat :=
  chksumArray (crc32 (encodeDevState s)) ++ encodeDevState s

/-- chkcrc from copyMetricsFromFile: reassemble the four checksum bytes
most-significant first and compare with the CRC-32 recomputed over the
data. -/
def chkcrc (crc32Array data : List Nat) : Bool :=
  (crc32Array.foldl (fun acc b => acc * 256 + b) 0) = crc32 data

/-- Reading a record back as copyMetricsFromFile does: split the first four
bytes, verify the checksum, then decode the payload; a checksum mismatch
makes the record unreadable. -/
def recordDecode (buf : List Nat) : Option DevState :=
  if chkcrc (buf.take 4) (buf.drop 4) then decodeDevState (buf.drop 4) else none

/-! ## Block clock (timeToBlockindex) -/

/-- The UTC components and the epoch value of a JavaScript Date. month0 is
getUTCMonth (zero-based) and msVal is valueOf (milliseconds since epoch). -/
structure DateTime where
  year : Nat
  month0 : Nat
  day : Nat
  hour : Nat
  msVal : Nat
deriving DecidableEq, Repr

/-- timeToBlockindex: y*1000000 + m*10000 + d*100 + trunc(hour/blockHours),
in UTC. -/
def timeToBlockindex (blockHours : Nat) (t : DateTime) : Nat :=
  t.year * 1000000 + (t.month0 + 1) * 10000 + t.day * 100 + t.hour / blockHours

/-- Ordered-set members are returned sorted by score; insertion step. -/
def insertAsc (x : Nat) : List Nat → List Nat
  | [] => [x]
  | y :: rest => if x ≤ y then x :: y :: rest else y :: insertAsc x rest

/-- Ascending sort of an ordered set's members, as redis range commands
return them. -/
def sortAsc (l : List Nat) : List Nat := l.foldr insertAsc []

/-! ## Write path (persistDevState / updateLastGoodValue /
saveDevStateAndUpdateIndex)

The state is the slice the write path touches for one device: the
fm:lgv:(devid) hash, the fm:blk:(devid) ordered set and the fm:devices
ordered set, together with a failure schedule that decides, one index-store
command at a time, whether that command fails.  File-system outcomes are
given up front in a PutEnv.  Each function additionally returns the list of
effects it performed, in order, so that ordering claims can be stated. -/

namespace Put

/-- Names of the per-metric fields of the last-good-value hash; the source
builds the string keys id_ticktime, id_status, id_value, id_scale,
id_timestamp from the metric id. -/
inductive FieldName where
  | ftick | fstatus | fvalue | fscale | fts
deriving DecidableEq, Repr

/-- A field key of the fm:lgv:(devid) hash: either a per-metric field
(the source's id_name string, with the injective pairing made explicit)
or the global ticktime field. -/
inductive LgvKey where
  | metricField (id : Nat) (f : FieldName)
  | globalTicktime
deriving DecidableEq, Repr

/-- The last-good-value hash: field keys mapped to numeric values. -/
abbrev LgvHash := List (LgvKey × Int)

/-- hget: the value of a field, if present. -/
def hashGet (h : LgvHash) (k : LgvKey) : Option Int :=
  (h.find? fun p => p.1 == k).map (·.2)

/-- hset: replace or add one field. -/
def hashSet (h : LgvHash) (k : LgvKey) (v : Int) : LgvHash :=
  (k, v) :: h.filter fun p => p.1 != k

/-- hmset: set the listed fields left to right. -/
def hashSetMany (h : LgvHash) (kvs : List (LgvKey × Int)) : LgvHash :=
  kvs.foldl (fun acc p => hashSet acc p.1 p.2) h

/-- The externally visible effects of one putDevState call, in order of
occurrence. -/
inductive Ev where
  | wroteTmp | renamed | lgvRead | lgvWrite | lgvGlobalRead | lgvGlobalWrite
  | markBlock | addDevice
deriving DecidableEq, Repr

/-- The outcome of each file-system step of one persistDevState call.
fileAbsent models the fs.access probe erroring, i.e. the record path does
not exist yet (newFile). -/
structure PutEnv where
  serErr : Option Err
  fileAbsent : Bool
  mkdirpErr : Option Err
  writeErr : Option Err
  renameErr : Option Err
deriving DecidableEq, Repr

/-- The index-store slice the write path touches, plus the failure schedule
of upcoming index-store commands (an exhausted schedule means the commands
succeed). -/
structure PutState where
  hash : LgvHash
  fmBlk : List Nat
  fmDevices : List Nat
  errs : List Bool
deriving DecidableEq, Repr

/-- Consume the next entry of the failure schedule. -/
def popErr (s : PutState) : Bool × PutState :=
  match s.errs with
  | [] => (false, s)
  | e :: rest => (e, { s with errs := rest })

/-- One hget command against the LGV hash. -/
def hgetCmd (s : PutState) (k : LgvKey) (ev : Ev) :
    PutState × List Ev × Except Err (Option Int) :=
  match popErr s with
  | (true, s1) => (s1, [], .error "hget failed")
  | (false, s1) => (s1, [ev], .ok (hashGet s1.hash k))

/-- One hmset command against the LGV hash. -/
def hmsetCmd (s : PutState) (kvs : List (LgvKey × Int)) :
    PutState × List Ev × Except Err Unit :=
  match popErr s with
  | (true, s1) => (s1, [], .error "hmset failed")
  | (false, s1) => ({ s1 with hash := hashSetMany s1.hash kvs }, [Ev.lgvWrite], .ok ())

/-- One hset command against the LGV hash. -/
def hsetCmd (s : PutState) (k : LgvKey) (v : Int) (ev : Ev) :
    PutState × List Ev × Except Err Unit :=
  match popErr s with
  | (true, s1) => (s1, [], .error "hset failed")
  | (false, s1) => ({ s1 with hash := hashSet s1.hash k v }, [ev], .ok ())

/-- zadd of the record's block into fm:blk:(devid) (markTime). -/
def zaddBlkCmd (s : PutState) (block : Nat) : PutState × List Ev × Except Err Unit :=
  match popErr s with
  | (true, s1) => (s1, [], .error "zadd failed")
  | (false, s1) =>
    ({ s1 with fmBlk := if block ∈ s1.fmBlk then s1.fmBlk else s1.fmBlk ++ [block] },
     [Ev.markBlock], .ok ())

/-- zadd of the devid into fm:devices. -/
def zaddDevCmd (s : PutState) (devid : Nat) : PutState × List Ev × Except Err Unit :=
  match popErr s with
  | (true, s1) => (s1, [], .error "zadd failed")
  | (false, s1) =>
    ({ s1 with fmDevices := if devid ∈ s1.fmDevices then s1.fmDevices else s1.fmDevices ++ [devid] },
     [Ev.addDevice], .ok ())

/-- persistDevState: serialize, probe the record path, mkdirp, write the
temp file, then rename it onto the record path.  The rename callback calls
cb(null, newFile) without inspecting its error, so a rename failure is not
surfaced; the renamed event is simply absent from the effect list. -/
def persistDevState (env : PutEnv) : List Ev × Except Err Bool :=
  match env.serErr with
  | some e => ([], .error e)
  | none =>
    let newFile := env.fileAbsent
    match env.mkdirpErr with
    | some e => ([], .error e)
    | none =>
      match env.writeErr with
      | some e => ([], .error e)
      | none =>
        match env.renameErr with
        | some _ => ([Ev.wroteTmp], .ok newFile)
        | none => ([Ev.wroteTmp, Ev.renamed], .ok newFile)

/-- The truthiness test thatTime and +thatTime > t of the per-metric gate. -/
def storedGtBool (thatTime : Option Int) (t : Int) : Bool :=
  match thatTime with
  | some tt => t < tt
  | none => false

/-- The truthiness test lasttime and lasttime >= t of the global gate. -/
def storedGeBool (lasttime : Option Int) (t : Int) : Bool :=
  match lasttime with
  | some lt => t ≤ lt
  | none => false

/-- The field-value pairs updateMetric writes for one metric: ticktime,
status, value, scale, and timestamp only when the metric carries one. -/
def lgvFields (t : Int) (m : Metric) : List (LgvKey × Int) :=
  [(LgvKey.metricField m.id .ftick, t),
   (LgvKey.metricField m.id .fstatus, m.status),
   (LgvKey.metricField m.id .fvalue, m.value),
   (LgvKey.metricField m.id .fscale, m.scale)] ++
  (match m.timestamp with
   | some ts => [(LgvKey.metricField m.id .fts, (ts : Int))]
   | none => [])

/-- updateMetric: one hmset of all fields of the metric. -/
def updateMetric (t : Int) (m : Metric) (s : PutState) :
    PutState × List Ev × Except Err Unit :=
  hmsetCmd s (lgvFields t m)

/-- The updateMetrics walk: for each metric, hget its stored ticktime; an
hget error aborts the walk; a stored ticktime strictly greater than t ends
the walk early with cb(null); otherwise the metric is overwritten and the
walk continues.  The returned Bool is the modified flag: whether at least
one updateMetric completed. -/
def updateMetricsWalk (t : Int) :
    List Metric → PutState → PutState × List Ev × Bool × Except Err Unit
  | [], s => (s, [], false, .ok ())
  | m :: remaining, s =>
    match hgetCmd s (.metricField m.id .ftick) .lgvRead with
    | (s1, tr1, .error e) => (s1, tr1, false, .error e)
    | (s1, tr1, .ok thatTime) =>
      if storedGtBool thatTime t then (s1, tr1, false, .ok ())
      else
        match updateMetric t m s1 with
        | (s2, tr2, .error e) => (s2, tr1 ++ tr2, false, .error e)
        | (s2, tr2, .ok _) =>
          match updateMetricsWalk t remaining s2 with
          | (s3, tr3, _, r) => (s3, tr1 ++ tr2 ++ tr3, true, r)

/-- updateLastGoodValue: run the walk, then the final continuation.  The
continuation receives the walk's error but never tests it: when nothing was
modified it reports success outright, and otherwise it proceeds to the
global-ticktime gate.  The gate's hget error is likewise untested (an
errored lasttime reads as undefined); only a failure of the final hset is
surfaced. -/
def updateLastGoodValue (ticktime : DateTime) (ms : List Metric) (s : PutState) :
    PutState × List Ev × Except Err Unit :=
  let t : Int := (ticktime.msVal / 1000 : Nat)
  match updateMetricsWalk t ms s with
  | (s1, tr1, modified, _) =>
    if !modified then (s1, tr1, .ok ())
    else
      match hgetCmd s1 .globalTicktime .lgvGlobalRead with
      | (s2, tr2, lastRes) =>
        let lasttime := match lastRes with | .ok v => v | .error _ => none
        if storedGeBool lasttime t then (s2, tr1 ++ tr2, .ok ())
        else
          match hsetCmd s2 .globalTicktime t .lgvGlobalWrite with
          | (s3, tr3, r) => (s3, tr1 ++ tr2 ++ tr3, r)

/-- markTime: zadd of the ticktime's block into fm:blk:(devid). -/
def markTime (blockHours : Nat) (ticktime : DateTime) (s : PutState) :
    PutState × List Ev × Except Err Unit :=
  zaddBlkCmd s (timeToBlockindex blockHours ticktime)

/-- saveDevStateAndUpdateIndex: persist the record, update the last good
value, mark the block, and, only for a new file, add the device to
fm:devices. -/
def saveDevStateAndUpdateIndex (env : PutEnv) (blockHours devid : Nat)
    (ticktime : DateTime) (devState : DevState) (s : PutState) :
    PutState × List Ev × Except Err Unit :=
  match persistDevState env with
  | (trW, .error e) => (s, trW, .error e)
  | (trW, .ok newFile) =>
    match updateLastGoodValue ticktime devState.metrics s with
    | (s1, trL, .error e) => (s1, trW ++ trL, .error e)
    | (s1, trL, .ok _) =>
      match markTime blockHours ticktime s1 with
      | (s2, trM, .error e) => (s2, trW ++ trL ++ trM, .error e)
      | (s2, trM, .ok _) =>
        if !newFile then (s2, trW ++ trL ++ trM, .ok ())
        else
          match zaddDevCmd s2 devid with
          | (s3, trD, r) => (s3, trW ++ trL ++ trM ++ trD, r)

/-- putDevState simply logs and delegates to saveDevStateAndUpdateIndex. -/
def putDevState (env : PutEnv) (blockHours devid : Nat) (ticktime : DateTime)
    (devState : DevState) (s : PutState) : PutState × List Ev × Except Err Unit :=
  saveDevStateAndUpdateIndex env blockHours devid ticktime devState s

end Put

/-! ## Housekeeping and archival (removeBlocksAfter / archiveAgedBlocks /
archiveDeviceBlock)

The state is the multi-device index slice housekeeping touches: fm:devices,
the per-device live and archived block sets, the live block directories and
the archive files.  Index-store and file-system primitives are modelled on
their success behaviour; the tar subprocess is given an arbitrary exit code
per (devid, block), because archiveDeviceBlock receives that exit code and
never tests it. -/

namespace HK

/-- The multi-device index and disk state housekeeping operates on. -/
structure Store where
  fmDevices : List Nat
  fmBlk : Nat → List Nat
  fmArcBlk : Nat → List Nat
  liveDir : Nat → Nat → Bool
  archiveFile : Nat → Nat → Bool

/-- removeDeviceBlockIndex: zrem of the block from fm:blk:(devid). -/
def removeDeviceBlockIndex (st : Store) (devid block : Nat) : Store :=
  { st with fmBlk := fun d =>
      if d = devid then (st.fmBlk d).filter (fun b => b != block) else st.fmBlk d }

/-- markDeviceBlockArchived: zadd of the block into fm:_blk:(devid). -/
def markDeviceBlockArchived (st : Store) (devid block : Nat) : Store :=
  { st with fmArcBlk := fun d =>
      if d = devid then
        (if block ∈ st.fmArcBlk d then st.fmArcBlk d else st.fmArcBlk d ++ [block])
      else st.fmArcBlk d }

/-- removeDeviceBlock: drop the index entry, then rm -rf the live device
block directory (the parent rmdir's error is ignored). -/
def removeDeviceBlock (st : Store) (devid block : Nat) : Store :=
  let st1 := removeDeviceBlockIndex st devid block
  { st1 with liveDir := fun d b =>
      if d = devid ∧ b = block then false else st1.liveDir d b }

/-- archiveDeviceBlock: mkdirp the archive dir, run
tar czf (archive) -C (dataRoot) (block)/(devid), then unconditionally
remove the live block and mark it archived.  The exec callback receives the
tar exit code but never tests it, so the removal and the archived mark
happen even when tar failed; only then is the tarball missing. -/
def archiveDeviceBlock (tarCode : Nat → Nat → Nat) (st : Store) (devid block : Nat) : Store :=
  let st1 := { st with archiveFile := fun d b =>
      if d = devid ∧ b = block then tarCode devid block = 0 else st.archiveFile d b }
  markDeviceBlockArchived (removeDeviceBlock st1 devid block) devid block

/-- The processBlocks loop of removeDeviceBlockAfter. -/
def removeBlocksLoop (st : Store) (devid : Nat) : List Nat → Store
  | [] => st
  | b :: rest => removeBlocksLoop (removeDeviceBlock st devid b) devid rest

/-- removeDeviceBlockAfter: fetch the members of fm:blk:(devid) with score
strictly greater than the given block (ascending), and remove each. -/
def removeDeviceBlockAfter (st : Store) (devid block : Nat) : Store :=
  removeBlocksLoop st devid (sortAsc ((st.fmBlk devid).filter fun b => block < b))

/-- The processDevices loop of removeBlocksAfter. -/
def removeDevicesLoop (st : Store) (block : Nat) : List Nat → Store
  | [] => st
  | d :: rest => removeDevicesLoop (removeDeviceBlockAfter st d block) block rest

/-- removeBlocksAfter: for every device of fm:devices, remove its blocks
younger than the given one. -/
def removeBlocksAfter (st : Store) (block : Nat) : Store :=
  removeDevicesLoop st block (sortAsc st.fmDevices)

/-- The processBlocks loop of archiveDeviceAgedBlocks. -/
def archiveBlocksLoop (tarCode : Nat → Nat → Nat) (st : Store) (devid : Nat) :
    List Nat → Store
  | [] => st
  | b :: rest => archiveBlocksLoop tarCode (archiveDeviceBlock tarCode st devid b) devid rest

/-- archiveDeviceAgedBlocks: when the device has more than level1BlocksNum
live blocks, archive the lowest-indexed surplus ones. -/
def archiveDeviceAgedBlocks (tarCode : Nat → Nat → Nat) (st : Store)
    (devid level1BlocksNum : Nat) : Store :=
  let len := (st.fmBlk devid).length
  if len = 0 then st
  else if (len : Int) - (level1BlocksNum : Int) ≤ 0 then st
  else archiveBlocksLoop tarCode st devid ((sortAsc (st.fmBlk devid)).take (len - level1BlocksNum))

/-- The processList loop of archiveAgedBlocks. -/
def archiveDevicesLoop (tarCode : Nat → Nat → Nat) (st : Store) (lvl : Nat) :
    List Nat → Store
  | [] => st
  | d :: rest => archiveDevicesLoop tarCode (archiveDeviceAgedBlocks tarCode st d lvl) lvl rest

/-- archiveAgedBlocks over every device of fm:devices. -/
def archiveAgedBlocks (tarCode : Nat → Nat → Nat) (st : Store) (lvl : Nat) : Store :=
  archiveDevicesLoop tarCode st lvl (sortAsc st.fmDevices)

/-- housekeeping: prune blocks younger than the current one, then archive
aged blocks.  The guard ! options.level1Blocks > 0 parses as
(!level1Blocks) > 0, which is true exactly when level1Blocks is falsy, so
archival runs for every non-zero level1Blocks and is skipped for 0. -/
def housekeeping (tarCode : Nat → Nat → Nat) (st : Store) (now : DateTime)
    (blockHours level1Blocks : Nat) : Store :=
  let st1 := removeBlocksAfter st (timeToBlockindex blockHours now)
  if level1Blocks = 0 then st1 else archiveAgedBlocks tarCode st1 level1Blocks

end HK

/-! ## Projection (getBlocksBackwards / filterAndSortFileList /
projectMetricsFromSortedFiles / projectMetrics)

The state is the per-device slice the projection reads: the live and
archived block sets and the block directories.  A record file carries its
filename epoch, whether its name ends in .dat, and its decoded metric list
(none when reading, checksum verification or decoding fails — such files
are logged and skipped).  Blocks listed in openFailList fail to open
(archive extraction or readdir error), which ends the walk at that block. -/

namespace Proj

/-- One file of a device block directory. -/
structure BFile where
  epoch : Nat
  isDat : Bool
  content : Option (List Metric)
deriving DecidableEq, Repr

/-- A projected metric: the record metric's fields spread together with the
ticktime taken from the file name. -/
structure ProjMetric where
  id : Nat
  status : Int
  value : Int
  scale : Int
  timestamp : Option Nat
  ticktime : Nat
deriving DecidableEq, Repr

/-- Spread of a decoded metric with the file's ticktime. -/
def projOfMetric (m : Metric) (tick : Nat) : ProjMetric :=
  ⟨m.id, m.status, m.value, m.scale, m.timestamp, tick⟩

/-- The per-device store slice the projection walks. -/
structure PStore where
  fmBlk : List Nat
  fmArcBlk : List Nat
  dirs : List (Nat × List BFile)
  openFailList : List Nat
deriving DecidableEq, Repr

/-- The directory of one block (empty when the block has none). -/
def dirOf (st : PStore) (b : Nat) : List BFile :=
  match st.dirs.find? fun p => p.1 == b with
  | some p => p.2
  | none => []

/-- openBlock: materialize the block if archived and list its files;
extraction and readdir failures surface as an open error. -/
def openBlock (st : PStore) (b : Nat) : Except Err (List BFile) :=
  if b ∈ st.openFailList then .error "open failed" else .ok (dirOf st b)

/-- Descending insertion by filename epoch. -/
def insertFileDesc (f : BFile) : List BFile → List BFile
  | [] => [f]
  | g :: rest => if g.epoch ≤ f.epoch then f :: g :: rest else g :: insertFileDesc f rest

/-- Descending sort by filename epoch, as the comparator b - a sorts. -/
def sortFilesDesc (l : List BFile) : List BFile := l.foldr insertFileDesc []

/-- filterAndSortFileList: keep .dat files, drop those whose epoch exceeds
the bound (no bound, or a zero bound, drops nothing since 0 is falsy), and
sort descending by epoch. -/
def filterAndSortFileList (fileList : List BFile) (maxTime : Option Nat) : List BFile :=
  let timeEpoch := maxTime.map fun ms => ms / 1000
  sortFilesDesc (fileList.filter fun f =>
    if !f.isDat then false
    else
      match timeEpoch with
      | some te => if te ≠ 0 ∧ te < f.epoch then false else true
      | none => true)

/-- copyMetricsFromFile: an unreadable file is an error; otherwise the
record's metrics, restricted to the requested ids when the request list is
non-empty, each tagged with the file's epoch as ticktime. -/
def copyMetricsFromFile (f : BFile) (metricIdList : List Nat) :
    Except Err (List ProjMetric) :=
  match f.content with
  | none => .error "unreadable record"
  | some ms =>
    .ok ((ms.filter fun m => metricIdList.isEmpty || metricIdList.contains m.id).map
      fun m => projOfMetric m f.epoch)

/-- The forEach merge of one file's metric copies: append each copy whose id
is not yet resolved, tracking the resolved ids alongside. -/
def mergeCopy : List ProjMetric → List Nat → List ProjMetric → List ProjMetric × List Nat
  | result, resolved, [] => (result, resolved)
  | result, resolved, m :: rest =>
    if m.id ∈ resolved then mergeCopy result resolved rest
    else mergeCopy (result ++ [m]) (resolved ++ [m.id]) rest

/-- The walkFiles loop: copy each file in order (read errors are logged and
skipped), merging unresolved metrics, and stop as soon as the resolved
count reaches the request count. -/
def walkFiles (metricIdList : List Nat) :
    List BFile → List ProjMetric → List Nat → List ProjMetric × List Nat
  | [], result, resolved => (result, resolved)
  | f :: rest, result, resolved =>
    match copyMetricsFromFile f metricIdList with
    | .error _ =>
      if resolved.length < metricIdList.length then
        walkFiles metricIdList rest result resolved
      else (result, resolved)
    | .ok copies =>
      match mergeCopy result resolved copies with
      | (result', resolved') =>
        if resolved'.length < metricIdList.length then
          walkFiles metricIdList rest result' resolved'
        else (result', resolved')

/-- projectMetricsFromSortedFiles: walk the sorted files starting from the
already-resolved metrics. -/
def projectMetricsFromSortedFiles (files : List BFile) (metricIdList : List Nat)
    (alreadyHad : List ProjMetric) : List ProjMetric :=
  (walkFiles metricIdList files alreadyHad (alreadyHad.map (·.id))).1

/-- Default travel limit over live blocks: (2 * 24) / blockHours. -/
def level1BlocksTravelMax (blockHours : Nat) : Nat := 2 * 24 / blockHours

/-- Travel limit over archived blocks (archives are slower to open). -/
def archiveBlocksTravelMax : Nat := 2

/-- zrevrangebyscore key max -inf limit 0 n: members with score at most max,
descending, at most n of them. -/
def zrevrangebyscoreLimit (s : List Nat) (maxScore limit : Nat) : List Nat :=
  ((sortAsc (s.filter fun b => b ≤ maxScore)).reverse).take limit

/-- getBlocksBackwards: the live (or archived) blocks with index at most
blockIndex(time), newest first, truncated to the phase's travel limit. -/
def getBlocksBackwards (blockHours : Nat) (st : PStore) (time : DateTime)
    (inArchive : Bool) : List Nat :=
  zrevrangebyscoreLimit (if inArchive then st.fmArcBlk else st.fmBlk)
    (timeToBlockindex blockHours time)
    (if inArchive then archiveBlocksTravelMax else level1BlocksTravelMax blockHours)

/-- The walkBlockList loop of projectMetrics, also returning the blocks it
opened successfully.  A failure to open a block ends the walk; after each
block the walk stops when the request list is empty or fully resolved. -/
def doProjectingInBlocks (st : PStore) (timeMs : Nat) (metricIdList : List Nat) :
    List Nat → List ProjMetric → List ProjMetric × List Nat
  | [], result => (result, [])
  | b :: rest, result =>
    match openBlock st b with
    | .error _ => (result, [])
    | .ok files0 =>
      let files := filterAndSortFileList files0 (some timeMs)
      let improved := projectMetricsFromSortedFiles files metricIdList result
      if metricIdList.isEmpty || improved.length = metricIdList.length then (improved, [b])
      else
        match doProjectingInBlocks st timeMs metricIdList rest improved with
        | (r, opened) => (r, b :: opened)

/-- projectMetrics: walk the live blocks backwards; when the request is not
fully resolved, continue over the archived blocks.  Returns the result list
and the blocks opened. -/
def projectMetrics (blockHours : Nat) (st : PStore) (time : DateTime)
    (metricIdList : List Nat) : List ProjMetric × List Nat :=
  match doProjectingInBlocks st time.msVal metricIdList
      (getBlocksBackwards blockHours st time false) [] with
  | (r1, op1) =>
    if r1.length ≠ 0 ∧ r1.length = metricIdList.length then (r1, op1)
    else
      match doProjectingInBlocks st time.msVal metricIdList
          (getBlocksBackwards blockHours st time true) r1 with
      | (r2, op2) => (r2, op1 ++ op2)

end Proj

/-! ## getDeviceLastGoodValue -/

/-- The object getDeviceLastGoodValue passes to its callback. -/
structure LgvResult where
  lastTicktime : DateTime
  metrics : List Proj.ProjMetric
deriving DecidableEq, Repr

/-- getDeviceLastGoodValue: calls back immediately with the current
wall-clock time and an empty metric list; the stored fm:lgv:(devid) hash is
never consulted. -/
def getDeviceLastGoodValue (lgvHash : Put.LgvHash) (now : DateTime) :
    Except Err LgvResult :=
  .ok { lastTicktime := now, metrics := [] }

/-! ## Concrete fixtures used to instantiate the claims -/

/-- A sample ticktime: 2023-11-14T22:13:20Z, epoch second 1700000000. -/
def dt0 : DateTime := ⟨2023, 10, 14, 22, 1700000000000⟩

/-- A sample single-metric device state for device 7. -/
def devState0 : DevState := ⟨7, 1700000000, [⟨1, 0, 100, 0, none⟩]⟩

/-- A store for device 4 holding two live blocks and nothing archived. -/
def hkStore0 : HK.Store where
  fmDevices := [4]
  fmBlk := fun d => if d = 4 then [2023111410, 2023111500] else []
  fmArcBlk := fun _ => []
  liveDir := fun d b => d == 4 && (b == 2023111410 || b == 2023111500)
  archiveFile := fun _ _ => false

/-- A tar sub-process that always exits with code 1. -/
def tarFail : Nat → Nat → Nat := fun _ _ => 1

/-- A store for device 9 holding one aged and one future-dated block. -/
def hkStore9 : HK.Store where
  fmDevices := [9]
  fmBlk := fun d => if d = 9 then [2023010100, 2099010100] else []
  fmArcBlk := fun _ => []
  liveDir := fun d b => d == 9 && (b == 2023010100 || b == 2099010100)
  archiveFile := fun _ _ => false

/-- 2024-01-01T00:00:00Z. -/
def dt2024 : DateTime := ⟨2024, 0, 1, 0, 1704067200000⟩

/-- A per-device projection store with two live blocks (hours 0-1 and 16-17
of 2023-11-14) and one archived block (hours 10-11) that is younger than
the oldest live block. -/
def projStore0 : Proj.PStore where
  fmBlk := [2023111400, 2023111408]
  fmArcBlk := [2023111405]
  dirs := [(2023111400, [⟨1699923600, true, some [⟨1, 0, 5, 0, none⟩]⟩]),
           (2023111405, [⟨1699956000, true, some [⟨1, 0, 6, 0, none⟩]⟩]),
           (2023111408, [⟨1699977600, true, some [⟨7, 0, 9, 0, none⟩]⟩])]
  openFailList := []

/-- 2023-11-14T17:00:00Z, inside block 2023111408. -/
def dtQ : DateTime := ⟨2023, 10, 14, 17, 1699981200000⟩

/-- A tar sub-process that always succeeds. -/
def tarOk : Nat → Nat → Nat := fun _ _ => 0

/-- A last-good-value hash holding metric 1 at ticktime 100 with value 5. -/
def lgvHash0 : Put.LgvHash :=
  [(.metricField 1 .ftick, 100), (.metricField 1 .fstatus, 0),
   (.metricField 1 .fvalue, 5), (.metricField 1 .fscale, 0)]

/-- A ticktime whose epoch second is exactly 100, tying with lgvHash0. -/
def dtTie : DateTime := ⟨1970, 0, 1, 0, 100000⟩

/-- The incoming metric competing with the stored tuple of lgvHash0 at the
tied ticktime. -/
def metricTie : Metric := ⟨1, 0, 7, 0, none⟩

end Ffc

/-! # Theorems -/

namespace Ffc

/-! ## Claim C10 -/

/-- Claim C10: getDeviceLastGoodValue never reads the stored fm:lgv hash —
its result is the same whatever the hash holds — and it always succeeds,
returning an empty metrics list and the current wall-clock time as
lastTicktime. -/
theorem c10_lgv_endpoint_ignores_store (h h' : Put.LgvHash) (now : DateTime) :
    getDeviceLastGoodValue h now = getDeviceLastGoodValue h' now ∧
    getDeviceLastGoodValue h now = .ok ⟨now, []⟩ :=
  ⟨rfl, rfl⟩

/-! ## Claim C2 -/

/-- Claim C2 (code bug in the write path): the rename callback of
persistDevState.wrFile passes cb(null, newFile) without inspecting the
rename error, so a failed rename — the commit point — is reported as a
successful write: with serialization, the existence probe, mkdirp and the
temp-file write all succeeding and the rename failing, persistDevState
reports success (and the rename effect is absent). -/
theorem c2_rename_failure_reports_success :
    Put.persistDevState ⟨none, true, none, none, some "EACCES"⟩ =
      ([Put.Ev.wroteTmp], .ok true) := rfl

/-! ## Claim C1 -/

/-- Claim C1 (code bug in the archiver): archiveDeviceBlock never tests the
tar exit code, so when creating the tarball fails (exit code 1) it still
removes the block-index entry from fm:blk, deletes the live directory and
adds the block to fm:_blk — the live data is destroyed although no archive
exists. -/
theorem c1_archive_ignores_tar_failure :
    (HK.archiveDeviceBlock tarFail hkStore0 4 2023111410).fmBlk 4 = [2023111500] ∧
    2023111410 ∈ (HK.archiveDeviceBlock tarFail hkStore0 4 2023111410).fmArcBlk 4 ∧
    (HK.archiveDeviceBlock tarFail hkStore0 4 2023111410).liveDir 4 2023111410 = false ∧
    (HK.archiveDeviceBlock tarFail hkStore0 4 2023111410).archiveFile 4 2023111410 = false := by
  refine ⟨?_, ?_, ?_, ?_⟩ <;> decide

/-! ## Claim C3 -/

/-- Claim C3 (code bug in putDeviceState): an index-store error during the
per-metric LGV walk is dropped by the walk's final continuation, so
putDevState reports success.  With every file-system step succeeding and
the very first index-store command (the hget of 1_ticktime) failing,
putDevState returns ok — the LGV hash is left untouched, yet the block
index and fm:devices are updated and the caller sees no error. -/
theorem c3_lgv_error_swallowed :
    Put.putDevState ⟨none, true, none, none, none⟩ 2 7 dt0 devState0
      ⟨[], [], [], [true]⟩ =
    (⟨[], [2023111411], [7], []⟩,
     [Put.Ev.wroteTmp, Put.Ev.renamed, Put.Ev.markBlock, Put.Ev.addDevice],
     .ok ()) := by
  decide

/-! ## Ordered-set sort lemmas -/

theorem mem_insertAsc (x y : Nat) (l : List Nat) :
    y ∈ insertAsc x l ↔ y = x ∨ y ∈ l := by
  induction l with
  | nil => simp [insertAsc]
  | cons a rest ih =>
    unfold insertAsc
    by_cases hxa : x ≤ a
    · simp [hxa]
    · simp only [hxa, if_false, List.mem_cons, ih]
      tauto

theorem mem_sortAsc (l : List Nat) (x : Nat) : x ∈ sortAsc l ↔ x ∈ l := by
  induction l with
  | nil => simp [sortAsc]
  | cons a rest ih =>
    show x ∈ insertAsc a (sortAsc rest) ↔ _
    rw [mem_insertAsc]
    simp [ih]

/-! ## Housekeeping lemmas -/

theorem removeDeviceBlock_fmBlk (st : HK.Store) (devid block d b : Nat) :
    b ∈ (HK.removeDeviceBlock st devid block).fmBlk d ↔
      b ∈ st.fmBlk d ∧ ¬(d = devid ∧ b = block) := by
  show b ∈ (HK.removeDeviceBlockIndex st devid block).fmBlk d ↔ _
  unfold HK.removeDeviceBlockIndex
  by_cases hd : d = devid
  · subst hd
    simp [List.mem_filter, bne_iff_ne]
  · simp [hd]

theorem removeDeviceBlock_liveDir (st : HK.Store) (devid block d b : Nat) :
    (HK.removeDeviceBlock st devid block).liveDir d b =
      if d = devid ∧ b = block then false else st.liveDir d b := rfl

theorem removeBlocksLoop_fmBlk (devid : Nat) (L : List Nat) (st : HK.Store)
    (d b : Nat) :
    b ∈ (HK.removeBlocksLoop st devid L).fmBlk d ↔
      b ∈ st.fmBlk d ∧ ¬(d = devid ∧ b ∈ L) := by
  induction L generalizing st with
  | nil => simp [HK.removeBlocksLoop]
  | cons x rest ih =>
    show b ∈ (HK.removeBlocksLoop (HK.removeDeviceBlock st devid x) devid rest).fmBlk d ↔ _
    rw [ih, removeDeviceBlock_fmBlk]
    simp only [List.mem_cons]
    tauto

theorem removeBlocksLoop_liveDir (devid : Nat) (L : List Nat) (st : HK.Store)
    (d b : Nat) :
    (HK.removeBlocksLoop st devid L).liveDir d b =
      if d = devid ∧ b ∈ L then false else st.liveDir d b := by
  induction L generalizing st with
  | nil => simp [HK.removeBlocksLoop]
  | cons x rest ih =>
    show (HK.removeBlocksLoop (HK.removeDeviceBlock st devid x) devid rest).liveDir d b = _
    rw [ih, removeDeviceBlock_liveDir]
    by_cases h1 : d = devid
    · subst h1
      by_cases h2 : b ∈ x :: rest
      · rcases List.mem_cons.mp h2 with h3 | h3
        · subst h3
          by_cases h4 : b ∈ rest <;> simp [h2, h4]
        · simp [h2, h3]
      · have hx : ¬ b = x := fun hh => h2 (hh ▸ List.mem_cons_self _ _)
        have hr : ¬ b ∈ rest := fun hh => h2 (List.mem_cons_of_mem _ hh)
        simp [h2, hx, hr]
    · simp [h1]

theorem removeBlocksLoop_fmDevices (devid : Nat) (L : List Nat) (st : HK.Store) :
    (HK.removeBlocksLoop st devid L).fmDevices = st.fmDevices := by
  induction L generalizing st with
  | nil => rfl
  | cons x rest ih =>
    show (HK.removeBlocksLoop (HK.removeDeviceBlock st devid x) devid rest).fmDevices = _
    rw [ih]
    rfl

theorem removeDeviceBlockAfter_fmBlk (st : HK.Store) (devid block d b : Nat) :
    b ∈ (HK.removeDeviceBlockAfter st devid block).fmBlk d ↔
      b ∈ st.fmBlk d ∧ ¬(d = devid ∧ block < b) := by
  unfold HK.removeDeviceBlockAfter
  rw [removeBlocksLoop_fmBlk]
  by_cases hd : d = devid
  · subst hd
    rw [mem_sortAsc]
    simp [List.mem_filter]
    tauto
  · simp [hd]

theorem removeDeviceBlockAfter_liveDir (st : HK.Store) (devid block d b : Nat) :
    (HK.removeDeviceBlockAfter st devid block).liveDir d b =
      if d = devid ∧ b ∈ st.fmBlk devid ∧ block < b then false
      else st.liveDir d b := by
  unfold HK.removeDeviceBlockAfter
  rw [removeBlocksLoop_liveDir]
  have hmem : b ∈ sortAsc ((st.fmBlk devid).filter fun y => decide (block < y)) ↔
      (b ∈ st.fmBlk devid ∧ block < b) := by
    rw [mem_sortAsc]
    simp [List.mem_filter]
  by_cases h1 : d = devid ∧ b ∈ sortAsc ((st.fmBlk devid).filter fun y => decide (block < y))
  · rw [if_pos h1, if_pos ⟨h1.1, hmem.mp h1.2⟩]
  · rw [if_neg h1, if_neg fun hc => h1 ⟨hc.1, hmem.mpr hc.2⟩]

theorem removeDeviceBlockAfter_fmDevices (st : HK.Store) (devid block : Nat) :
    (HK.removeDeviceBlockAfter st devid block).fmDevices = st.fmDevices :=
  removeBlocksLoop_fmDevices _ _ _

theorem removeDevicesLoop_fmBlk (block : Nat) (DL : List Nat) (st : HK.Store)
    (d b : Nat) :
    b ∈ (HK.removeDevicesLoop st block DL).fmBlk d ↔
      b ∈ st.fmBlk d ∧ ¬(d ∈ DL ∧ block < b) := by
  induction DL generalizing st with
  | nil => simp [HK.removeDevicesLoop]
  | cons d0 rest ih =>
    show b ∈ (HK.removeDevicesLoop (HK.removeDeviceBlockAfter st d0 block) block rest).fmBlk d ↔ _
    rw [ih, removeDeviceBlockAfter_fmBlk]
    simp only [List.mem_cons]
    tauto

theorem removeDevicesLoop_liveDir_mono (block : Nat) (DL : List Nat)
    (st : HK.Store) (d b : Nat)
    (h : (HK.removeDevicesLoop st block DL).liveDir d b = true) :
    st.liveDir d b = true := by
  induction DL generalizing st with
  | nil => exact h
  | cons d0 rest ih =>
    have h1 := ih (HK.removeDeviceBlockAfter st d0 block) h
    rw [removeDeviceBlockAfter_liveDir] at h1
    by_cases h2 : d = d0 ∧ b ∈ st.fmBlk d0 ∧ block < b
    · rw [if_pos h2] at h1
      cases h1
    · rw [if_neg h2] at h1
      exact h1

theorem removeDevicesLoop_liveDir_false (block : Nat) (DL : List Nat)
    (st : HK.Store) (d b : Nat) :
    d ∈ DL → b ∈ st.fmBlk d → block < b →
    (HK.removeDevicesLoop st block DL).liveDir d b = false := by
  induction DL generalizing st with
  | nil => intro hd _ _; cases hd
  | cons d0 rest ih =>
    intro hd hb hgt
    show (HK.removeDevicesLoop (HK.removeDeviceBlockAfter st d0 block) block rest).liveDir d b = false
    by_cases hdd : d = d0
    · subst hdd
      have hfalse : (HK.removeDeviceBlockAfter st d block).liveDir d b = false := by
        rw [removeDeviceBlockAfter_liveDir, if_pos ⟨rfl, hb, hgt⟩]
      cases hres : (HK.removeDevicesLoop (HK.removeDeviceBlockAfter st d block) block rest).liveDir d b
      · rfl
      · have := removeDevicesLoop_liveDir_mono block rest _ d b hres
        rw [hfalse] at this
        cases this
    · rcases List.mem_cons.mp hd with h | h
      · exact absurd h hdd
      · refine ih (HK.removeDeviceBlockAfter st d0 block) h ?_ hgt
        rw [removeDeviceBlockAfter_fmBlk]
        exact ⟨hb, fun hc => hdd hc.1⟩

theorem removeDevicesLoop_fmDevices (block : Nat) (DL : List Nat) (st : HK.Store) :
    (HK.removeDevicesLoop st block DL).fmDevices = st.fmDevices := by
  induction DL generalizing st with
  | nil => rfl
  | cons d0 rest ih =>
    show (HK.removeDevicesLoop (HK.removeDeviceBlockAfter st d0 block) block rest).fmDevices = _
    rw [ih, removeDeviceBlockAfter_fmDevices]

theorem removeBlocksAfter_fmBlk (st : HK.Store) (block d b : Nat) :
    b ∈ (HK.removeBlocksAfter st block).fmBlk d ↔
      b ∈ st.fmBlk d ∧ ¬(d ∈ st.fmDevices ∧ block < b) := by
  unfold HK.removeBlocksAfter
  rw [removeDevicesLoop_fmBlk, mem_sortAsc]

theorem removeBlocksAfter_liveDir_false (st : HK.Store) (block d b : Nat)
    (hd : d ∈ st.fmDevices) (hb : b ∈ st.fmBlk d) (hgt : block < b) :
    (HK.removeBlocksAfter st block).liveDir d b = false :=
  removeDevicesLoop_liveDir_false block _ st d b ((mem_sortAsc _ _).mpr hd) hb hgt

/-! ## Archival lemmas -/

theorem archiveDeviceBlock_fmBlk_subset (tarCode : Nat → Nat → Nat)
    (st : HK.Store) (devid block d b : Nat)
    (h : b ∈ (HK.archiveDeviceBlock tarCode st devid block).fmBlk d) :
    b ∈ st.fmBlk d := by
  unfold HK.archiveDeviceBlock at h
  have h2 : b ∈ (HK.removeDeviceBlock
      { st with archiveFile := fun dd bb =>
          if dd = devid ∧ bb = block then tarCode devid block = 0
          else st.archiveFile dd bb } devid block).fmBlk d := h
  rw [removeDeviceBlock_fmBlk] at h2
  exact h2.1

theorem archiveDeviceBlock_liveDir_mono (tarCode : Nat → Nat → Nat)
    (st : HK.Store) (devid block d b : Nat)
    (h : (HK.archiveDeviceBlock tarCode st devid block).liveDir d b = true) :
    st.liveDir d b = true := by
  unfold HK.archiveDeviceBlock at h
  have h2 : (HK.removeDeviceBlock
      { st with archiveFile := fun dd bb =>
          if dd = devid ∧ bb = block then tarCode devid block = 0
          else st.archiveFile dd bb } devid block).liveDir d b = true := h
  rw [removeDeviceBlock_liveDir] at h2
  by_cases hc : d = devid ∧ b = block
  · rw [if_pos hc] at h2
    cases h2
  · rw [if_neg hc] at h2
    exact h2

theorem archiveDeviceBlock_fmDevices (tarCode : Nat → Nat → Nat)
    (st : HK.Store) (devid block : Nat) :
    (HK.archiveDeviceBlock tarCode st devid block).fmDevices = st.fmDevices := rfl

theorem archiveBlocksLoop_fmBlk_subset (tarCode : Nat → Nat → Nat) (devid : Nat)
    (L : List Nat) (st : HK.Store) (d b : Nat)
    (h : b ∈ (HK.archiveBlocksLoop tarCode st devid L).fmBlk d) :
    b ∈ st.fmBlk d := by
  induction L generalizing st with
  | nil => exact h
  | cons x rest ih =>
    exact archiveDeviceBlock_fmBlk_subset tarCode st devid x d b (ih _ h)

theorem archiveBlocksLoop_liveDir_mono (tarCode : Nat → Nat → Nat) (devid : Nat)
    (L : List Nat) (st : HK.Store) (d b : Nat)
    (h : (HK.archiveBlocksLoop tarCode st devid L).liveDir d b = true) :
    st.liveDir d b = true := by
  induction L generalizing st with
  | nil => exact h
  | cons x rest ih =>
    exact archiveDeviceBlock_liveDir_mono tarCode st devid x d b (ih _ h)

theorem archiveBlocksLoop_fmDevices (tarCode : Nat → Nat → Nat) (devid : Nat)
    (L : List Nat) (st : HK.Store) :
    (HK.archiveBlocksLoop tarCode st devid L).fmDevices = st.fmDevices := by
  induction L generalizing st with
  | nil => rfl
  | cons x rest ih =>
    show (HK.archiveBlocksLoop tarCode (HK.archiveDeviceBlock tarCode st devid x) devid rest).fmDevices = _
    rw [ih]
    rfl

theorem archiveDeviceAgedBlocks_fmBlk_subset (tarCode : Nat → Nat → Nat)
    (st : HK.Store) (devid lvl d b : Nat)
    (h : b ∈ (HK.archiveDeviceAgedBlocks tarCode st devid lvl).fmBlk d) :
    b ∈ st.fmBlk d := by
  unfold HK.archiveDeviceAgedBlocks at h
  by_cases h1 : (st.fmBlk devid).length = 0
  · rw [if_pos h1] at h
    exact h
  · rw [if_neg h1] at h
    by_cases h2 : ((st.fmBlk devid).length : Int) - (lvl : Int) ≤ 0
    · rw [if_pos h2] at h
      exact h
    · rw [if_neg h2] at h
      exact archiveBlocksLoop_fmBlk_subset tarCode devid _ st d b h

theorem archiveDeviceAgedBlocks_liveDir_mono (tarCode : Nat → Nat → Nat)
    (st : HK.Store) (devid lvl d b : Nat)
    (h : (HK.archiveDeviceAgedBlocks tarCode st devid lvl).liveDir d b = true) :
    st.liveDir d b = true := by
  unfold HK.archiveDeviceAgedBlocks at h
  by_cases h1 : (st.fmBlk devid).length = 0
  · rw [if_pos h1] at h
    exact h
  · rw [if_neg h1] at h
    by_cases h2 : ((st.fmBlk devid).length : Int) - (lvl : Int) ≤ 0
    · rw [if_pos h2] at h
      exact h
    · rw [if_neg h2] at h
      exact archiveBlocksLoop_liveDir_mono tarCode devid _ st d b h

theorem archiveDeviceAgedBlocks_fmDevices (tarCode : Nat → Nat → Nat)
    (st : HK.Store) (devid lvl : Nat) :
    (HK.archiveDeviceAgedBlocks tarCode st devid lvl).fmDevices = st.fmDevices := by
  unfold HK.archiveDeviceAgedBlocks
  by_cases h1 : (st.fmBlk devid).length = 0
  · rw [if_pos h1]
  · rw [if_neg h1]
    by_cases h2 : ((st.fmBlk devid).length : Int) - (lvl : Int) ≤ 0
    · rw [if_pos h2]
    · rw [if_neg h2]
      exact archiveBlocksLoop_fmDevices tarCode devid _ st

theorem archiveDevicesLoop_fmBlk_subset (tarCode : Nat → Nat → Nat) (lvl : Nat)
    (DL : List Nat) (st : HK.Store) (d b : Nat)
    (h : b ∈ (HK.archiveDevicesLoop tarCode st lvl DL).fmBlk d) :
    b ∈ st.fmBlk d := by
  induction DL generalizing st with
  | nil => exact h
  | cons d0 rest ih =>
    exact archiveDeviceAgedBlocks_fmBlk_subset tarCode st d0 lvl d b (ih _ h)

theorem archiveDevicesLoop_liveDir_mono (tarCode : Nat → Nat → Nat) (lvl : Nat)
    (DL : List Nat) (st : HK.Store) (d b : Nat)
    (h : (HK.archiveDevicesLoop tarCode st lvl DL).liveDir d b = true) :
    st.liveDir d b = true := by
  induction DL generalizing st with
  | nil => exact h
  | cons d0 rest ih =>
    exact archiveDeviceAgedBlocks_liveDir_mono tarCode st d0 lvl d b (ih _ h)

/-! ## Claim C9 -/

/-- Claim C9: after housekeeping at current time T, no device listed in
fm:devices retains a block index greater than blockIndex(T) in its live
block set; every such future-dated block had its index entry removed and
its live directory deleted by the pruning step (and stays gone after the
archival step); and blocks with index at most blockIndex(T) are retained by
the pruning step. -/
theorem c9_housekeeping_prunes_future (tarCode : Nat → Nat → Nat)
    (st : HK.Store) (now : DateTime) (bh lvl : Nat) :
    (∀ d ∈ st.fmDevices,
      ∀ b ∈ (HK.housekeeping tarCode st now bh lvl).fmBlk d,
        b ≤ timeToBlockindex bh now) ∧
    (∀ d ∈ st.fmDevices, ∀ b ∈ st.fmBlk d, timeToBlockindex bh now < b →
      b ∉ (HK.removeBlocksAfter st (timeToBlockindex bh now)).fmBlk d ∧
      (HK.removeBlocksAfter st (timeToBlockindex bh now)).liveDir d b = false ∧
      b ∉ (HK.housekeeping tarCode st now bh lvl).fmBlk d ∧
      (HK.housekeeping tarCode st now bh lvl).liveDir d b = false) ∧
    (∀ d ∈ st.fmDevices, ∀ b ∈ st.fmBlk d, b ≤ timeToBlockindex bh now →
      b ∈ (HK.removeBlocksAfter st (timeToBlockindex bh now)).fmBlk d) := by
  have hprune : ∀ d b, b ∈ (HK.removeBlocksAfter st (timeToBlockindex bh now)).fmBlk d ↔
      b ∈ st.fmBlk d ∧ ¬(d ∈ st.fmDevices ∧ timeToBlockindex bh now < b) :=
    fun d b => removeBlocksAfter_fmBlk st _ d b
  have hhk_sub : ∀ d b, b ∈ (HK.housekeeping tarCode st now bh lvl).fmBlk d →
      b ∈ (HK.removeBlocksAfter st (timeToBlockindex bh now)).fmBlk d := by
    intro d b h
    unfold HK.housekeeping at h
    by_cases hl : lvl = 0
    · rw [if_pos hl] at h
      exact h
    · rw [if_neg hl] at h
      exact archiveDevicesLoop_fmBlk_subset tarCode lvl _ _ d b h
  have hhk_live : ∀ d b,
      (HK.housekeeping tarCode st now bh lvl).liveDir d b = true →
      (HK.removeBlocksAfter st (timeToBlockindex bh now)).liveDir d b = true := by
    intro d b h
    unfold HK.housekeeping at h
    by_cases hl : lvl = 0
    · rw [if_pos hl] at h
      exact h
    · rw [if_neg hl] at h
      exact archiveDevicesLoop_liveDir_mono tarCode lvl _ _ d b h
  refine ⟨?_, ?_, ?_⟩
  · intro d hd b hb
    have h1 := (hprune d b).mp (hhk_sub d b hb)
    by_contra hgt
    exact h1.2 ⟨hd, Nat.lt_of_not_le hgt⟩
  · intro d hd b hb hgt
    have h1 : b ∉ (HK.removeBlocksAfter st (timeToBlockindex bh now)).fmBlk d := by
      intro hc
      exact ((hprune d b).mp hc).2 ⟨hd, hgt⟩
    have h2 : (HK.removeBlocksAfter st (timeToBlockindex bh now)).liveDir d b = false :=
      removeBlocksAfter_liveDir_false st _ d b hd hb hgt
    refine ⟨h1, h2, fun hc => h1 (hhk_sub d b hc), ?_⟩
    cases hres : (HK.housekeeping tarCode st now bh lvl).liveDir d b
    · rfl
    · have := hhk_live d b hres
      rw [h2] at this
      cases this
  · intro d hd b hb hle
    rw [hprune]
    exact ⟨hb, fun hc => absurd hle (Nat.not_le.mpr hc.2)⟩

/-- Witness for C9 at a concrete store: device 9 holds blocks 2023010100
and 2099010100 and housekeeping runs at 2024-01-01T00:00Z with one
level-1 block. -/
theorem c9_witness :
    (∀ d ∈ hkStore9.fmDevices,
      ∀ b ∈ (HK.housekeeping tarOk hkStore9 dt2024 2 1).fmBlk d,
        b ≤ timeToBlockindex 2 dt2024) ∧
    (∀ d ∈ hkStore9.fmDevices, ∀ b ∈ hkStore9.fmBlk d,
      timeToBlockindex 2 dt2024 < b →
      b ∉ (HK.removeBlocksAfter hkStore9 (timeToBlockindex 2 dt2024)).fmBlk d ∧
      (HK.removeBlocksAfter hkStore9 (timeToBlockindex 2 dt2024)).liveDir d b = false ∧
      b ∉ (HK.housekeeping tarOk hkStore9 dt2024 2 1).fmBlk d ∧
      (HK.housekeeping tarOk hkStore9 dt2024 2 1).liveDir d b = false) ∧
    (∀ d ∈ hkStore9.fmDevices, ∀ b ∈ hkStore9.fmBlk d,
      b ≤ timeToBlockindex 2 dt2024 →
      b ∈ (HK.removeBlocksAfter hkStore9 (timeToBlockindex 2 dt2024)).fmBlk d) :=
  c9_housekeeping_prunes_future tarOk hkStore9 dt2024 2 1

/-! ## Sortedness of the ordered-set ranges -/

theorem insertAsc_sorted (x : Nat) (l : List Nat)
    (h : List.Sorted (· ≤ ·) l) : List.Sorted (· ≤ ·) (insertAsc x l) := by
  induction l with
  | nil => simp [insertAsc]
  | cons a rest ih =>
    rw [List.sorted_cons] at h
    unfold insertAsc
    by_cases hxa : x ≤ a
    · rw [if_pos hxa, List.sorted_cons]
      refine ⟨?_, ?_⟩
      · intro b hb
        rcases List.mem_cons.mp hb with h1 | h1
        · exact h1 ▸ hxa
        · exact le_trans hxa (h.1 b h1)
      · rw [List.sorted_cons]
        exact h
    · rw [if_neg hxa, List.sorted_cons]
      refine ⟨?_, ih h.2⟩
      intro b hb
      rcases (mem_insertAsc x b rest).mp hb with h1 | h1
      · exact h1 ▸ Nat.le_of_not_le hxa
      · exact h.1 b h1

theorem sortAsc_sorted (l : List Nat) : List.Sorted (· ≤ ·) (sortAsc l) := by
  induction l with
  | nil => simp [sortAsc]
  | cons a rest ih => exact insertAsc_sorted a (sortAsc rest) ih

/-! ## Projection bound lemmas -/

theorem zrevrange_length (s : List Nat) (maxScore limit : Nat) :
    (Proj.zrevrangebyscoreLimit s maxScore limit).length ≤ limit :=
  List.length_take_le _ _

theorem zrevrange_le_max (s : List Nat) (maxScore limit : Nat) :
    ∀ b ∈ Proj.zrevrangebyscoreLimit s maxScore limit, b ≤ maxScore := by
  intro b hb
  have h1 := List.mem_of_mem_take hb
  rw [List.mem_reverse, mem_sortAsc] at h1
  have h2 := List.mem_filter.mp h1
  exact of_decide_eq_true h2.2

theorem zrevrange_desc (s : List Nat) (maxScore limit : Nat) :
    (Proj.zrevrangebyscoreLimit s maxScore limit).Pairwise (· ≥ ·) := by
  refine List.Pairwise.sublist (List.take_sublist _ _) ?_
  rw [List.pairwise_reverse]
  exact sortAsc_sorted _

theorem doProj_opened_subset (st : Proj.PStore) (timeMs : Nat)
    (M : List Nat) (bl : List Nat) (res : List Proj.ProjMetric) :
    ∀ b ∈ (Proj.doProjectingInBlocks st timeMs M bl res).2, b ∈ bl := by
  induction bl generalizing res with
  | nil => intro b hb; cases hb
  | cons b0 rest ih =>
    intro b hb
    unfold Proj.doProjectingInBlocks at hb
    cases hob : Proj.openBlock st b0 with
    | error e =>
      rw [hob] at hb
      cases hb
    | ok files0 =>
      rw [hob] at hb
      simp only [] at hb
      by_cases hstop : (M.isEmpty ||
          (Proj.projectMetricsFromSortedFiles
            (Proj.filterAndSortFileList files0 (some timeMs)) M res).length = M.length)
      · rw [if_pos hstop] at hb
        rcases List.mem_cons.mp hb with h | h
        · exact h ▸ List.mem_cons_self _ _
        · cases h
      · rw [if_neg hstop] at hb
        have hb' : b ∈ b0 :: (Proj.doProjectingInBlocks st timeMs M rest
            (Proj.projectMetricsFromSortedFiles
              (Proj.filterAndSortFileList files0 (some timeMs)) M res)).2 := hb
        rcases List.mem_cons.mp hb' with h | h
        · exact h ▸ List.mem_cons_self _ _
        · exact List.mem_cons_of_mem _ (ih _ b h)

theorem doProj_opened_length (st : Proj.PStore) (timeMs : Nat)
    (M : List Nat) (bl : List Nat) (res : List Proj.ProjMetric) :
    (Proj.doProjectingInBlocks st timeMs M bl res).2.length ≤ bl.length := by
  induction bl generalizing res with
  | nil => exact Nat.le_refl 0
  | cons b0 rest ih =>
    unfold Proj.doProjectingInBlocks
    cases hob : Proj.openBlock st b0 with
    | error e => simp
    | ok files0 =>
      simp only []
      by_cases hstop : (M.isEmpty ||
          (Proj.projectMetricsFromSortedFiles
            (Proj.filterAndSortFileList files0 (some timeMs)) M res).length = M.length)
      · rw [if_pos hstop]
        simp
      · rw [if_neg hstop]
        show (Proj.doProjectingInBlocks st timeMs M rest _).2.length + 1 ≤ rest.length + 1
        exact Nat.succ_le_succ (ih _)

/-! ## Claim C8 -/

/-- Claim C8: one projectMetrics invocation opens at most
LIVE_TRAVEL_MAX + ARCHIVE_TRAVEL_MAX blocks; the live walk requests at most
LIVE_TRAVEL_MAX live blocks and the archive walk at most ARCHIVE_TRAVEL_MAX
archived blocks, each with index at most blockIndex(t) and listed in
descending order; and the limits default to 48 / blockHours and 2. -/
theorem c8_projection_bound (bh : Nat) (st : Proj.PStore) (time : DateTime)
    (M : List Nat) :
    (Proj.projectMetrics bh st time M).2.length ≤
      Proj.level1BlocksTravelMax bh + Proj.archiveBlocksTravelMax ∧
    Proj.level1BlocksTravelMax bh = 48 / bh ∧
    Proj.archiveBlocksTravelMax = 2 ∧
    (Proj.getBlocksBackwards bh st time false).length ≤
      Proj.level1BlocksTravelMax bh ∧
    (Proj.getBlocksBackwards bh st time true).length ≤
      Proj.archiveBlocksTravelMax ∧
    (∀ b ∈ Proj.getBlocksBackwards bh st time false,
      b ∈ st.fmBlk ∧ b ≤ timeToBlockindex bh time) ∧
    (∀ b ∈ Proj.getBlocksBackwards bh st time true,
      b ∈ st.fmArcBlk ∧ b ≤ timeToBlockindex bh time) ∧
    (Proj.getBlocksBackwards bh st time false).Pairwise (· ≥ ·) ∧
    (Proj.getBlocksBackwards bh st time true).Pairwise (· ≥ ·) := by
  have hmemLive : ∀ b ∈ Proj.getBlocksBackwards bh st time false,
      b ∈ st.fmBlk ∧ b ≤ timeToBlockindex bh time := by
    intro b hb
    refine ⟨?_, zrevrange_le_max _ _ _ b hb⟩
    have h1 := List.mem_of_mem_take hb
    rw [List.mem_reverse, mem_sortAsc] at h1
    exact (List.mem_filter.mp h1).1
  have hmemArc : ∀ b ∈ Proj.getBlocksBackwards bh st time true,
      b ∈ st.fmArcBlk ∧ b ≤ timeToBlockindex bh time := by
    intro b hb
    refine ⟨?_, zrevrange_le_max _ _ _ b hb⟩
    have h1 := List.mem_of_mem_take hb
    rw [List.mem_reverse, mem_sortAsc] at h1
    exact (List.mem_filter.mp h1).1
  have hcount : (Proj.projectMetrics bh st time M).2.length ≤
      Proj.level1BlocksTravelMax bh + Proj.archiveBlocksTravelMax := by
    unfold Proj.projectMetrics
    set e := Proj.doProjectingInBlocks st time.msVal M
      (Proj.getBlocksBackwards bh st time false) [] with he
    set f := Proj.doProjectingInBlocks st time.msVal M
      (Proj.getBlocksBackwards bh st time true) e.1 with hf
    have hl1 : e.2.length ≤ Proj.level1BlocksTravelMax bh := by
      rw [he]
      exact le_trans (doProj_opened_length _ _ _ _ _) (zrevrange_length _ _ _)
    have hl2 : f.2.length ≤ Proj.archiveBlocksTravelMax := by
      rw [hf]
      exact le_trans (doProj_opened_length _ _ _ _ _) (zrevrange_length _ _ _)
    show (if e.1.length ≠ 0 ∧ e.1.length = M.length then (e.1, e.2)
      else (f.1, e.2 ++ f.2)).2.length ≤ _
    by_cases hdone : e.1.length ≠ 0 ∧ e.1.length = M.length
    · rw [if_pos hdone]
      exact le_trans hl1 (Nat.le_add_right _ _)
    · rw [if_neg hdone]
      show (e.2 ++ f.2).length ≤ _
      rw [List.length_append]
      exact Nat.add_le_add hl1 hl2
  exact ⟨hcount, rfl, rfl, zrevrange_length _ _ _, zrevrange_length _ _ _,
    hmemLive, hmemArc, zrevrange_desc _ _ _, zrevrange_desc _ _ _⟩

/-- Witness for C8 at a concrete store and query. -/
theorem c8_witness :
    (Proj.projectMetrics 2 projStore0 dtQ [1, 99]).2.length ≤
      Proj.level1BlocksTravelMax 2 + Proj.archiveBlocksTravelMax ∧
    Proj.level1BlocksTravelMax 2 = 48 / 2 ∧
    Proj.archiveBlocksTravelMax = 2 ∧
    (Proj.getBlocksBackwards 2 projStore0 dtQ false).length ≤
      Proj.level1BlocksTravelMax 2 ∧
    (Proj.getBlocksBackwards 2 projStore0 dtQ true).length ≤
      Proj.archiveBlocksTravelMax ∧
    (∀ b ∈ Proj.getBlocksBackwards 2 projStore0 dtQ false,
      b ∈ projStore0.fmBlk ∧ b ≤ timeToBlockindex 2 dtQ) ∧
    (∀ b ∈ Proj.getBlocksBackwards 2 projStore0 dtQ true,
      b ∈ projStore0.fmArcBlk ∧ b ≤ timeToBlockindex 2 dtQ) ∧
    (Proj.getBlocksBackwards 2 projStore0 dtQ false).Pairwise (· ≥ ·) ∧
    (Proj.getBlocksBackwards 2 projStore0 dtQ true).Pairwise (· ≥ ·) :=
  c8_projection_bound 2 projStore0 dtQ [1, 99]

/-! ## Varint lemmas -/

theorem decodeVarint_encodeVarintAux (fuel : Nat) :
    ∀ n, n ≤ fuel → ∀ xs, decodeVarint (encodeVarintAux fuel n ++ xs) = some (n, xs) := by
  induction fuel with
  | zero =>
    intro n hn xs
    have : n = 0 := Nat.le_zero.mp hn
    subst this
    rfl
  | succ fuel ih =>
    intro n hn xs
    by_cases h : n < 128
    · unfold encodeVarintAux
      rw [if_pos h]
      unfold decodeVarint
      simp [h]
    · unfold encodeVarintAux
      rw [if_neg h]
      show decodeVarint ((n % 128 + 128) :: (encodeVarintAux fuel (n / 128) ++ xs)) = _
      unfold decodeVarint
      have h1 : ¬ (n % 128 + 128 < 128) := by omega
      rw [if_neg h1]
      have h2 : n / 128 ≤ fuel := by
        have h3 : n / 128 < n := Nat.div_lt_self (by omega) (by omega)
        omega
      rw [ih (n / 128) h2 xs]
      show some (n / 128 * 128 + (n % 128 + 128 - 128), xs) = some (n, xs)
      have h4 : n / 128 * 128 + (n % 128 + 128 - 128) = n := by omega
      rw [h4]

theorem decodeVarint_encodeVarint (n : Nat) (xs : List Nat) :
    decodeVarint (encodeVarint n ++ xs) = some (n, xs) :=
  decodeVarint_encodeVarintAux n n (Nat.le_refl n) xs

theorem encodeVarintAux_lt (fuel : Nat) :
    ∀ n, ∀ b ∈ encodeVarintAux fuel n, b < 256 := by
  induction fuel with
  | zero =>
    intro n b hb
    rcases List.mem_singleton.mp hb with rfl
    omega
  | succ fuel ih =>
    intro n b hb
    unfold encodeVarintAux at hb
    by_cases h : n < 128
    · rw [if_pos h] at hb
      rcases List.mem_singleton.mp hb with rfl
      omega
    · rw [if_neg h] at hb
      rcases List.mem_cons.mp hb with h1 | h1
      · omega
      · exact ih _ b h1

theorem encodeVarint_lt (n : Nat) : ∀ b ∈ encodeVarint n, b < 256 :=
  encodeVarintAux_lt n n

theorem encodeVarintAux_length_pos (fuel n : Nat) :
    1 ≤ (encodeVarintAux fuel n).length := by
  cases fuel with
  | zero => exact Nat.le_refl 1
  | succ fuel =>
    unfold encodeVarintAux
    by_cases h : n < 128
    · rw [if_pos h]
      exact Nat.le_refl 1
    · rw [if_neg h]
      simp

theorem encodeVarint_length_pos (n : Nat) : 1 ≤ (encodeVarint n).length :=
  encodeVarintAux_length_pos n n

theorem varint_int32_roundtrip (v : Int) (h1 : -2 ^ 31 ≤ v) (h2 : v < 2 ^ 31) :
    varintValToInt32 (int32ToVarintVal v) = v := by
  unfold varintValToInt32 int32ToVarintVal
  by_cases hv : v < 0
  · rw [if_pos hv]
    have e31 : (2 : Int) ^ 31 = 2147483648 := by norm_num
    have e64 : (2 : Int) ^ 64 = 18446744073709551616 := by norm_num
    rw [e31] at h1 h2
    have hn : (v + 2 ^ 64).toNat = (v + 18446744073709551616).toNat := by rw [e64]
    rw [hn]
    have hmod : (v + 18446744073709551616).toNat % 2 ^ 32 =
        (v + 4294967296).toNat := by
      have h2n : (2 : Nat) ^ 32 = 4294967296 := by norm_num
      rw [h2n]
      omega
    rw [hmod]
    have hlt : ¬ ((v + 4294967296).toNat < 2 ^ 31) := by
      have h2n : (2 : Nat) ^ 31 = 2147483648 := by norm_num
      rw [h2n]
      omega
    rw [if_neg hlt]
    have h2i : (2 : Int) ^ 32 = 4294967296 := by norm_num
    rw [h2i]
    omega
  · rw [if_neg hv]
    have e31 : (2 : Int) ^ 31 = 2147483648 := by norm_num
    rw [e31] at h2
    have hmod : v.toNat % 2 ^ 32 = v.toNat := by
      apply Nat.mod_eq_of_lt
      have h2n : (2 : Nat) ^ 32 = 4294967296 := by norm_num
      rw [h2n]
      omega
    rw [hmod]
    have hlt : v.toNat < 2 ^ 31 := by
      have h2n : (2 : Nat) ^ 31 = 2147483648 := by norm_num
      rw [h2n]
      omega
    rw [if_pos hlt]
    omega

/-! ## Metric message decoding steps -/

theorem decodeMetricLoop_step_id (fuel v : Nat) (rest : List Nat) (acc : Metric) :
    decodeMetricLoop (fuel + 1) (encodeTag 1 0 ++ (encodeVarint v ++ rest)) acc =
    decodeMetricLoop fuel rest { acc with id := v % 2 ^ 32 } := by
  show decodeMetricLoop (fuel + 1) (8 :: (encodeVarint v ++ rest)) acc = _
  conv_lhs => rw [decodeMetricLoop]
  rw [show decodeVarint (8 :: (encodeVarint v ++ rest)) =
    some (8, encodeVarint v ++ rest) from by unfold decodeVarint; norm_num]
  simp only []
  rw [decodeVarint_encodeVarint]
  rfl

theorem decodeMetricLoop_step_status (fuel v : Nat) (rest : List Nat) (acc : Metric) :
    decodeMetricLoop (fuel + 1) (encodeTag 2 0 ++ (encodeVarint v ++ rest)) acc =
    decodeMetricLoop fuel rest { acc with status := varintValToInt32 v } := by
  show decodeMetricLoop (fuel + 1) (16 :: (encodeVarint v ++ rest)) acc = _
  conv_lhs => rw [decodeMetricLoop]
  rw [show decodeVarint (16 :: (encodeVarint v ++ rest)) =
    some (16, encodeVarint v ++ rest) from by unfold decodeVarint; norm_num]
  simp only []
  rw [decodeVarint_encodeVarint]
  rfl

theorem decodeMetricLoop_step_value (fuel v : Nat) (rest : List Nat) (acc : Metric) :
    decodeMetricLoop (fuel + 1) (encodeTag 3 0 ++ (encodeVarint v ++ rest)) acc =
    decodeMetricLoop fuel rest { acc with value := varintValToInt32 v } := by
  show decodeMetricLoop (fuel + 1) (24 :: (encodeVarint v ++ rest)) acc = _
  conv_lhs => rw [decodeMetricLoop]
  rw [show decodeVarint (24 :: (encodeVarint v ++ rest)) =
    some (24, encodeVarint v ++ rest) from by unfold decodeVarint; norm_num]
  simp only []
  rw [decodeVarint_encodeVarint]
  rfl

theorem decodeMetricLoop_step_scale (fuel v : Nat) (rest : List Nat) (acc : Metric) :
    decodeMetricLoop (fuel + 1) (encodeTag 4 0 ++ (encodeVarint v ++ rest)) acc =
    decodeMetricLoop fuel rest { acc with scale := varintValToInt32 v } := by
  show decodeMetricLoop (fuel + 1) (32 :: (encodeVarint v ++ rest)) acc = _
  conv_lhs => rw [decodeMetricLoop]
  rw [show decodeVarint (32 :: (encodeVarint v ++ rest)) =
    some (32, encodeVarint v ++ rest) from by unfold decodeVarint; norm_num]
  simp only []
  rw [decodeVarint_encodeVarint]
  rfl

theorem decodeMetricLoop_step_ts (fuel v : Nat) (rest : List Nat) (acc : Metric) :
    decodeMetricLoop (fuel + 1) (encodeTag 5 0 ++ (encodeVarint v ++ rest)) acc =
    decodeMetricLoop fuel rest { acc with timestamp := some (v % 2 ^ 32) } := by
  show decodeMetricLoop (fuel + 1) (40 :: (encodeVarint v ++ rest)) acc = _
  conv_lhs => rw [decodeMetricLoop]
  rw [show decodeVarint (40 :: (encodeVarint v ++ rest)) =
    some (40, encodeVarint v ++ rest) from by unfold decodeVarint; norm_num]
  simp only []
  rw [decodeVarint_encodeVarint]
  rfl

theorem decodeMetricLoop_nil (fuel : Nat) (acc : Metric) :
    decodeMetricLoop fuel [] acc = some acc := by
  cases fuel <;> rfl

/-- Decoding an encoded metric body recovers the metric, with any fuel of
at least five iterations. -/
theorem decodeMetricBody (m : Metric) (hv : m.valid) (fuel : Nat)
    (hfuel : 5 ≤ fuel) :
    decodeMetricLoop fuel (encodeMetricBody m) defaultMetric = some m := by
  obtain ⟨k, rfl⟩ : ∃ k, fuel = k + 5 := ⟨fuel - 5, by omega⟩
  obtain ⟨hid, hs1, hs2, hv1, hv2, hc1, hc2, hts⟩ := hv
  unfold encodeMetricBody
  simp only [List.append_assoc]
  rw [show k + 5 = (k + 4) + 1 from rfl, decodeMetricLoop_step_id]
  rw [show k + 4 = (k + 3) + 1 from rfl, decodeMetricLoop_step_status]
  rw [show k + 3 = (k + 2) + 1 from rfl, decodeMetricLoop_step_value]
  rw [show k + 2 = (k + 1) + 1 from rfl, decodeMetricLoop_step_scale]
  have hidm : m.id % 2 ^ 32 = m.id := Nat.mod_eq_of_lt hid
  have hsm := varint_int32_roundtrip m.status hs1 hs2
  have hvm := varint_int32_roundtrip m.value hv1 hv2
  have hcm := varint_int32_roundtrip m.scale hc1 hc2
  cases hmts : m.timestamp with
  | none =>
    show decodeMetricLoop (k + 1) ([] : List Nat) _ = _
    rw [decodeMetricLoop_nil]
    refine congrArg some ?_
    cases m with
    | mk id status value scale timestamp =>
      simp only [] at hmts
      subst hmts
      simp only [] at hidm hsm hvm hcm
      simp [defaultMetric, hidm, hsm, hvm, hcm]
      norm_num at hid
      exact hid
  | some ts =>
    show decodeMetricLoop (k + 1) (encodeTag 5 0 ++ encodeVarint ts) _ = _
    rw [show encodeVarint ts = encodeVarint ts ++ [] from (List.append_nil _).symm,
      decodeMetricLoop_step_ts, decodeMetricLoop_nil]
    have htsm : ts % 2 ^ 32 = ts := Nat.mod_eq_of_lt (hts ts hmts)
    refine congrArg some ?_
    cases m with
    | mk id status value scale timestamp =>
      simp only [] at hmts
      subst hmts
      simp only [] at hidm hsm hvm hcm
      simp [defaultMetric, hidm, hsm, hvm, hcm, htsm]
      refine ⟨?_, ?_⟩
      · norm_num at hid
        exact hid
      · have h5 := hts ts rfl
        norm_num at h5
        exact h5

/-! ## DevState message decoding steps -/

theorem decodeDevStateLoop_step_devid (fuel v : Nat) (rest : List Nat)
    (acc : DevState) :
    decodeDevStateLoop (fuel + 1) (encodeTag 1 0 ++ (encodeVarint v ++ rest)) acc =
    decodeDevStateLoop fuel rest { acc with devid := v % 2 ^ 32 } := by
  show decodeDevStateLoop (fuel + 1) (8 :: (encodeVarint v ++ rest)) acc = _
  conv_lhs => rw [decodeDevStateLoop]
  rw [show decodeVarint (8 :: (encodeVarint v ++ rest)) =
    some (8, encodeVarint v ++ rest) from by unfold decodeVarint; norm_num]
  simp only []
  rw [decodeVarint_encodeVarint]
  rfl

theorem decodeDevStateLoop_step_ts (fuel v : Nat) (rest : List Nat)
    (acc : DevState) :
    decodeDevStateLoop (fuel + 1) (encodeTag 2 0 ++ (encodeVarint v ++ rest)) acc =
    decodeDevStateLoop fuel rest { acc with timestamp := v % 2 ^ 32 } := by
  show decodeDevStateLoop (fuel + 1) (16 :: (encodeVarint v ++ rest)) acc = _
  conv_lhs => rw [decodeDevStateLoop]
  rw [show decodeVarint (16 :: (encodeVarint v ++ rest)) =
    some (16, encodeVarint v ++ rest) from by unfold decodeVarint; norm_num]
  simp only []
  rw [decodeVarint_encodeVarint]
  rfl

theorem decodeDevStateLoop_nil (fuel : Nat) (acc : DevState) :
    decodeDevStateLoop fuel [] acc = some acc := by
  cases fuel <;> rfl

theorem encodeMetricBody_length (m : Metric) : 5 ≤ (encodeMetricBody m).length := by
  have h1 := encodeVarint_length_pos m.id
  have h2 := encodeVarint_length_pos (int32ToVarintVal m.status)
  have h3 := encodeVarint_length_pos (int32ToVarintVal m.value)
  have h4 := encodeVarint_length_pos (int32ToVarintVal m.scale)
  have ht1 : (encodeTag 1 0).length = 1 := rfl
  have ht2 : (encodeTag 2 0).length = 1 := rfl
  have ht3 : (encodeTag 3 0).length = 1 := rfl
  have ht4 : (encodeTag 4 0).length = 1 := rfl
  cases hts : m.timestamp <;>
    simp [encodeMetricBody, hts, ht1, ht2, ht3, ht4] <;> omega

theorem decodeDevStateLoop_step_metric (fuel : Nat) (m : Metric) (hv : m.valid)
    (rest : List Nat) (acc : DevState) :
    decodeDevStateLoop (fuel + 1)
      (encodeTag 3 2 ++ (encodeVarint (encodeMetricBody m).length ++
        (encodeMetricBody m ++ rest))) acc =
    decodeDevStateLoop fuel rest { acc with metrics := acc.metrics ++ [m] } := by
  show decodeDevStateLoop (fuel + 1)
    (26 :: (encodeVarint (encodeMetricBody m).length ++ (encodeMetricBody m ++ rest))) acc = _
  conv_lhs => rw [decodeDevStateLoop]
  rw [show decodeVarint
      (26 :: (encodeVarint (encodeMetricBody m).length ++ (encodeMetricBody m ++ rest))) =
    some (26, encodeVarint (encodeMetricBody m).length ++ (encodeMetricBody m ++ rest)) from by
      unfold decodeVarint; norm_num]
  simp only []
  rw [decodeVarint_encodeVarint]
  simp only []
  have hlen : (encodeMetricBody m).length ≤ (encodeMetricBody m ++ rest).length := by
    rw [List.length_append]
    exact Nat.le_add_right _ _
  rw [if_pos hlen]
  rw [List.take_left, List.drop_left]
  rw [decodeMetricBody m hv (encodeMetricBody m).length (encodeMetricBody_length m)]
  norm_num

theorem decodeDevStateLoop_metrics (ms : List Metric) (hv : ∀ m ∈ ms, m.valid)
    (fuel : Nat) (hfuel : ms.length ≤ fuel) (acc : DevState) :
    decodeDevStateLoop fuel
      ((ms.map fun m => encodeTag 3 2 ++ encodeVarint (encodeMetricBody m).length ++
        encodeMetricBody m).flatten) acc =
    some { acc with metrics := acc.metrics ++ ms } := by
  induction ms generalizing fuel acc with
  | nil =>
    rw [show ((([] : List Metric).map fun m => encodeTag 3 2 ++
      encodeVarint (encodeMetricBody m).length ++ encodeMetricBody m).flatten) =
      ([] : List Nat) from rfl, decodeDevStateLoop_nil]
    cases acc
    simp
  | cons m tail ih =>
    obtain ⟨k, rfl⟩ : ∃ k, fuel = k + 1 := by
      rw [List.length_cons] at hfuel
      exact ⟨fuel - 1, by omega⟩
    rw [List.map_cons, List.flatten_cons]
    rw [show (encodeTag 3 2 ++ encodeVarint (encodeMetricBody m).length ++
        encodeMetricBody m) ++
        ((tail.map fun m => encodeTag 3 2 ++ encodeVarint (encodeMetricBody m).length ++
          encodeMetricBody m).flatten) =
      encodeTag 3 2 ++ (encodeVarint (encodeMetricBody m).length ++
        (encodeMetricBody m ++
          ((tail.map fun m => encodeTag 3 2 ++ encodeVarint (encodeMetricBody m).length ++
            encodeMetricBody m).flatten))) from by simp [List.append_assoc]]
    rw [decodeDevStateLoop_step_metric k m (hv m (List.mem_cons_self _ _)) _ acc]
    rw [ih (fun m' hm' => hv m' (List.mem_cons_of_mem _ hm')) k
      (by rw [List.length_cons] at hfuel; omega)]
    simp

theorem chunks_length_ge (ms : List Metric) :
    ms.length ≤ ((ms.map fun m => encodeTag 3 2 ++
      encodeVarint (encodeMetricBody m).length ++ encodeMetricBody m).flatten).length := by
  induction ms with
  | nil => simp
  | cons m tail ih =>
    rw [List.map_cons, List.flatten_cons, List.length_append, List.length_cons]
    have ht : (encodeTag 3 2).length = 1 := rfl
    have h1 : 1 ≤ (encodeTag 3 2 ++ encodeVarint (encodeMetricBody m).length ++
        encodeMetricBody m).length := by
      rw [List.length_append, List.length_append, ht]
      omega
    omega

/-- Decoding the wire encoding of a valid DevState recovers it exactly. -/
theorem decodeDevState_encodeDevState (s : DevState) (hv : s.valid) :
    decodeDevState (encodeDevState s) = some s := by
  obtain ⟨hdev, hts, hms⟩ := hv
  unfold decodeDevState
  have ht1 : (encodeTag 1 0).length = 1 := rfl
  have ht2 : (encodeTag 2 0).length = 1 := rfl
  have hfuel : 2 + s.metrics.length ≤ (encodeDevState s).length := by
    have h1 := encodeVarint_length_pos s.devid
    have h2 := encodeVarint_length_pos s.timestamp
    have h3 := chunks_length_ge s.metrics
    simp only [encodeDevState, List.length_append, ht1, ht2]
    omega
  have hRA : encodeDevState s = encodeTag 1 0 ++ (encodeVarint s.devid ++
    (encodeTag 2 0 ++ (encodeVarint s.timestamp ++
      ((s.metrics.map fun m => encodeTag 3 2 ++ encodeVarint (encodeMetricBody m).length ++
        encodeMetricBody m).flatten)))) := by
    simp [encodeDevState, List.append_assoc]
  rw [show (encodeDevState s).length =
    (((encodeDevState s).length - 2 + 1) + 1) from by omega]
  rw [hRA]
  rw [decodeDevStateLoop_step_devid, decodeDevStateLoop_step_ts]
  rw [decodeDevStateLoop_metrics s.metrics hms _ (by rw [← hRA]; omega)]
  refine congrArg some ?_
  cases s with
  | mk devid timestamp metrics =>
    simp only [] at hdev hts
    norm_num at hdev hts
    simp [Nat.mod_eq_of_lt hdev, Nat.mod_eq_of_lt hts]

/-! ## CRC lemmas -/

theorem append_lt {l1 l2 : List Nat} (h1 : ∀ b ∈ l1, b < 256)
    (h2 : ∀ b ∈ l2, b < 256) : ∀ b ∈ l1 ++ l2, b < 256 := by
  intro b hb
  rcases List.mem_append.mp hb with h | h
  · exact h1 b h
  · exact h2 b h

theorem encodeMetricBody_lt (m : Metric) : ∀ b ∈ encodeMetricBody m, b < 256 := by
  unfold encodeMetricBody
  cases hts : m.timestamp with
  | none =>
    exact append_lt (append_lt (append_lt (append_lt (append_lt (append_lt
      (append_lt (append_lt (encodeVarint_lt 8) (encodeVarint_lt m.id))
        (encodeVarint_lt 16)) (encodeVarint_lt (int32ToVarintVal m.status)))
        (encodeVarint_lt 24)) (encodeVarint_lt (int32ToVarintVal m.value)))
        (encodeVarint_lt 32)) (encodeVarint_lt (int32ToVarintVal m.scale)))
      (fun b hb => absurd hb (List.not_mem_nil b))
  | some ts =>
    exact append_lt (append_lt (append_lt (append_lt (append_lt (append_lt
      (append_lt (append_lt (encodeVarint_lt 8) (encodeVarint_lt m.id))
        (encodeVarint_lt 16)) (encodeVarint_lt (int32ToVarintVal m.status)))
        (encodeVarint_lt 24)) (encodeVarint_lt (int32ToVarintVal m.value)))
        (encodeVarint_lt 32)) (encodeVarint_lt (int32ToVarintVal m.scale)))
      (append_lt (encodeVarint_lt 40) (encodeVarint_lt ts))

theorem chunks_lt (ms : List Metric) :
    ∀ b ∈ ((ms.map fun m => encodeTag 3 2 ++ encodeVarint (encodeMetricBody m).length ++
      encodeMetricBody m).flatten), b < 256 := by
  intro b hb
  rcases List.mem_flatten.mp hb with ⟨l, hl, hbl⟩
  rcases List.mem_map.mp hl with ⟨m, hm, rfl⟩
  exact append_lt (append_lt (encodeVarint_lt 26) (encodeVarint_lt _))
    (encodeMetricBody_lt m) b hbl

theorem encodeDevState_lt (s : DevState) : ∀ b ∈ encodeDevState s, b < 256 := by
  unfold encodeDevState
  exact append_lt (append_lt (append_lt (append_lt (encodeVarint_lt 8)
    (encodeVarint_lt s.devid)) (encodeVarint_lt 16)) (encodeVarint_lt s.timestamp))
    (chunks_lt s.metrics)

theorem crcStep_lt (c : Nat) (h : c < 2 ^ 32) : crcStep c < 2 ^ 32 := by
  unfold crcStep
  by_cases h2 : c % 2 = 1
  · rw [if_pos h2]
    refine Nat.xor_lt_two_pow (by omega) (by norm_num)
  · rw [if_neg h2]
    omega

theorem crcIter_lt (k c : Nat) (h : c < 2 ^ 32) : crcStep^[k] c < 2 ^ 32 := by
  induction k generalizing c with
  | zero => exact h
  | succ k ih =>
    rw [Function.iterate_succ_apply]
    exact ih _ (crcStep_lt c h)

theorem crcByte_lt (c b : Nat) (hc : c < 2 ^ 32) (hb : b < 256) :
    crcByte c b < 2 ^ 32 :=
  crcIter_lt 8 _ (Nat.xor_lt_two_pow hc (lt_trans hb (by norm_num)))

theorem crc32_lt (data : List Nat) (hb : ∀ b ∈ data, b < 256) :
    crc32 data < 2 ^ 32 := by
  unfold crc32
  have gen : ∀ (l : List Nat) (c : Nat), c < 2 ^ 32 → (∀ b ∈ l, b < 256) →
      l.foldl crcByte c < 2 ^ 32 := by
    intro l
    induction l with
    | nil => intro c hc _; exact hc
    | cons x xs ih =>
      intro c hc hb2
      exact ih _ (crcByte_lt c x hc (hb2 x (List.mem_cons_self _ _)))
        (fun b hb3 => hb2 b (List.mem_cons_of_mem _ hb3))
  exact Nat.xor_lt_two_pow (gen data _ (by norm_num) hb) (by norm_num)

theorem chksumArray_eq (c : Nat) :
    chksumArray c =
      [u8 (jsShr32 c 24), u8 (jsShr32 c 16), u8 (jsShr32 c 8), u8 (jsShr32 c 0)] := by
  simp [chksumArray, List.range_succ]

theorem chksum_reassemble (c : Nat) (h : c < 2 ^ 32) :
    List.foldl (fun acc b => acc * 256 + b) 0 (chksumArray c) = c := by
  rw [chksumArray_eq]
  show ((((0 * 256 + u8 (jsShr32 c 24)) * 256 + u8 (jsShr32 c 16)) * 256 +
    u8 (jsShr32 c 8)) * 256 + u8 (jsShr32 c 0)) = c
  unfold u8 jsShr32 toInt32
  have hc : c % 2 ^ 32 = c := Nat.mod_eq_of_lt h
  rw [hc]
  by_cases h31 : c < 2 ^ 31
  · rw [if_pos h31]
    norm_num
    omega
  · rw [if_neg h31]
    norm_num
    norm_num at h h31
    omega

theorem chkcrc_serialize (s : DevState) :
    chkcrc (chksumArray (crc32 (encodeDevState s))) (encodeDevState s) = true := by
  unfold chkcrc
  rw [chksum_reassemble _ (crc32_lt _ (encodeDevState_lt s))]
  simp

theorem serialize_take (s : DevState) :
    (serializeDevState s).take 4 = chksumArray (crc32 (encodeDevState s)) := by
  unfold serializeDevState
  rw [chksumArray_eq]
  rfl

theorem serialize_drop (s : DevState) :
    (serializeDevState s).drop 4 = encodeDevState s := by
  unfold serializeDevState
  rw [chksumArray_eq]
  rfl

/-! ## Claim C6 -/

/-- Claim C6: decoding the wire encoding of any valid DevState yields it
back; the first four bytes of the stored record are the big-endian CRC-32
of the payload that follows; the CRC check recomputed over an uncorrupted
record always passes; and reading a stored record back through the
checksum-verifying decoder recovers the original DevState. -/
theorem c6_codec_roundtrip (s : DevState) (hv : s.valid) :
    decodeDevState (encodeDevState s) = some s ∧
    (serializeDevState s).take 4 = chksumArray (crc32 (encodeDevState s)) ∧
    chkcrc ((serializeDevState s).take 4) ((serializeDevState s).drop 4) = true ∧
    recordDecode (serializeDevState s) = some s := by
  have h1 := decodeDevState_encodeDevState s hv
  have h2 := serialize_take s
  have h3 := serialize_drop s
  have h4 : chkcrc ((serializeDevState s).take 4) ((serializeDevState s).drop 4) = true := by
    rw [h2, h3]
    exact chkcrc_serialize s
  refine ⟨h1, h2, h4, ?_⟩
  unfold recordDecode
  rw [h4]
  show decodeDevState ((serializeDevState s).drop 4) = some s
  rw [h3, h1]

/-- Witness for C6 at the concrete single-metric device state. -/
theorem c6_witness :
    decodeDevState (encodeDevState devState0) = some devState0 ∧
    (serializeDevState devState0).take 4 =
      chksumArray (crc32 (encodeDevState devState0)) ∧
    chkcrc ((serializeDevState devState0).take 4)
      ((serializeDevState devState0).drop 4) = true ∧
    recordDecode (serializeDevState devState0) = some devState0 :=
  c6_codec_roundtrip devState0 (by decide)

/-! ## Claim C4: counterexample -/

/-- Claim C4 is false as stated: at an exact ticktime tie the stored tuple
is overwritten.  With 1_ticktime stored as 100 and value 5, an incoming
metric at ticktime 100 with value 7 replaces the stored value (the gate
skips only when the stored ticktime is strictly greater). -/
theorem c4_counterexample :
    Put.hashGet
      (Put.updateLastGoodValue dtTie [metricTie] ⟨lgvHash0, [], [], []⟩).1.hash
      (.metricField 1 .fvalue) = some 7 := by
  decide

/-! ## Claim C5: counterexample -/

/-- Claim C5 is false as stated: in a fully successful putDevState call the
last-good-value writes happen strictly before the block-index add, not
after it; and a successful return does not imply the rename succeeded (a
failed rename still returns ok). -/
theorem c5_counterexample :
    (Put.putDevState ⟨none, true, none, none, none⟩ 2 7 dt0 devState0
        ⟨[], [], [], []⟩).2.1 =
      [Put.Ev.wroteTmp, Put.Ev.renamed, Put.Ev.lgvRead, Put.Ev.lgvWrite,
       Put.Ev.lgvGlobalRead, Put.Ev.lgvGlobalWrite, Put.Ev.markBlock,
       Put.Ev.addDevice] ∧
    (Put.putDevState ⟨none, true, none, none, none⟩ 2 7 dt0 devState0
        ⟨[], [], [], []⟩).2.2 = .ok () ∧
    List.indexOf Put.Ev.lgvWrite
        (Put.putDevState ⟨none, true, none, none, none⟩ 2 7 dt0 devState0
          ⟨[], [], [], []⟩).2.1 <
      List.indexOf Put.Ev.markBlock
        (Put.putDevState ⟨none, true, none, none, none⟩ 2 7 dt0 devState0
          ⟨[], [], [], []⟩).2.1 ∧
    (Put.putDevState ⟨none, true, none, none, some "EACCES"⟩ 2 7 dt0 devState0
        ⟨[], [], [], []⟩).2.2 = .ok () := by
  refine ⟨?_, ?_, ?_, ?_⟩ <;> decide

/-! ## Hash and walk lemmas shared by the write-path claims -/

theorem find_filter_ne (h : List (Put.LgvKey × Int)) (k k' : Put.LgvKey)
    (hne : k' ≠ k) :
    List.find? (fun p => p.1 == k') (h.filter fun p => p.1 != k) =
    List.find? (fun p => p.1 == k') h := by
  induction h with
  | nil => rfl
  | cons a t ih =>
    rw [List.filter_cons]
    by_cases ha : a.1 = k
    · have h2 : ¬ ((a.1 == k') = true) := by
        simp only [beq_iff_eq, ha]
        exact fun hh => hne hh.symm
      simp only [ha, bne_self_eq_false, Bool.false_eq_true, if_false]
      rw [ih, @List.find?_cons_of_neg _ (fun p => p.1 == k') a _ h2]
    · have h1 : (a.1 != k) = true := by simp [bne, ha]
      rw [h1]
      simp only [if_true]
      by_cases ha' : ((fun p : Put.LgvKey × Int => p.1 == k') a) = true
      · rw [@List.find?_cons_of_pos _ (fun p => p.1 == k') a _ ha',
          @List.find?_cons_of_pos _ (fun p => p.1 == k') a _ ha']
      · rw [@List.find?_cons_of_neg _ (fun p => p.1 == k') a _ ha',
          @List.find?_cons_of_neg _ (fun p => p.1 == k') a _ ha', ih]

theorem hashGet_hashSet (h : Put.LgvHash) (k k' : Put.LgvKey) (v : Int) :
    Put.hashGet (Put.hashSet h k v) k' =
      if k' = k then some v else Put.hashGet h k' := by
  by_cases hk : k' = k
  · subst hk
    simp [Put.hashGet, Put.hashSet, List.find?]
  · simp only [Put.hashGet, Put.hashSet, List.find?, if_neg hk]
    have h1 : (k == k') = false := by
      simp
      exact fun hh => hk hh.symm
    simp [h1, find_filter_ne h k k' hk]

theorem hashGet_hashSetMany_not_mem (h : Put.LgvHash) (kvs : List (Put.LgvKey × Int))
    (k : Put.LgvKey) (hk : ∀ p ∈ kvs, p.1 ≠ k) :
    Put.hashGet (Put.hashSetMany h kvs) k = Put.hashGet h k := by
  induction kvs generalizing h with
  | nil => rfl
  | cons p rest ih =>
    have : Put.hashSetMany h (p :: rest) = Put.hashSetMany (Put.hashSet h p.1 p.2) rest := rfl
    rw [this, ih _ fun q hq => hk q (List.mem_cons_of_mem _ hq), hashGet_hashSet,
      if_neg fun hh => hk p (List.mem_cons_self _ _) hh.symm]

/-- The per-metric hmset leaves the metric's stored tuple holding exactly the
incoming ticktime and metric fields. -/
theorem lgvFields_overwrite (h : Put.LgvHash) (t : Int) (m : Metric) :
    Put.hashGet (Put.hashSetMany h (Put.lgvFields t m)) (.metricField m.id .ftick) = some t ∧
    Put.hashGet (Put.hashSetMany h (Put.lgvFields t m)) (.metricField m.id .fstatus) = some m.status ∧
    Put.hashGet (Put.hashSetMany h (Put.lgvFields t m)) (.metricField m.id .fvalue) = some m.value ∧
    Put.hashGet (Put.hashSetMany h (Put.lgvFields t m)) (.metricField m.id .fscale) = some m.scale ∧
    (∀ ts, m.timestamp = some ts →
      Put.hashGet (Put.hashSetMany h (Put.lgvFields t m)) (.metricField m.id .fts) = some (ts : Int)) := by
  cases hts : m.timestamp <;>
    simp [Put.lgvFields, Put.hashSetMany, hashGet_hashSet, hts]

/-- hget leaves the hash untouched. -/
theorem hgetCmd_hash (s : Put.PutState) (k : Put.LgvKey) (ev : Put.Ev) :
    (Put.hgetCmd s k ev).1.hash = s.hash := by
  unfold Put.hgetCmd Put.popErr
  cases h : s.errs with
  | nil => rfl
  | cons e tail => cases e <;> rfl

/-- A successful hget returns the stored field value. -/
theorem hgetCmd_ok (s : Put.PutState) (k : Put.LgvKey) (ev : Put.Ev) (v : Option Int)
    (h : (Put.hgetCmd s k ev).2.2 = .ok v) : v = Put.hashGet s.hash k := by
  unfold Put.hgetCmd Put.popErr at h
  cases he : s.errs with
  | nil =>
    rw [he] at h
    simp at h
    exact h.symm
  | cons e tail =>
    rw [he] at h
    cases e with
    | true => simp at h
    | false =>
      simp at h
      exact h.symm

/-- Every key lgvFields writes belongs to the metric's own id. -/
theorem lgvFields_keys (t : Int) (m : Metric) :
    ∀ p ∈ Put.lgvFields t m, ∃ fn : Put.FieldName, p.1 = .metricField m.id fn := by
  rintro ⟨pk, pv⟩ hp
  cases hts : m.timestamp with
  | none =>
    simp [Put.lgvFields, hts, Prod.ext_iff] at hp
    rcases hp with ⟨hp, _⟩ | ⟨hp, _⟩ | ⟨hp, _⟩ | ⟨hp, _⟩ <;> exact ⟨_, hp⟩
  | some ts =>
    simp [Put.lgvFields, hts, Prod.ext_iff] at hp
    rcases hp with ⟨hp, _⟩ | ⟨hp, _⟩ | ⟨hp, _⟩ | ⟨hp, _⟩ | ⟨hp, _⟩ <;> exact ⟨_, hp⟩

/-- hmset cannot change a field whose key it does not write. -/
theorem hmsetCmd_pres (s : Put.PutState) (kvs : List (Put.LgvKey × Int))
    (k : Put.LgvKey) (hk : ∀ p ∈ kvs, p.1 ≠ k) :
    Put.hashGet (Put.hmsetCmd s kvs).1.hash k = Put.hashGet s.hash k := by
  unfold Put.hmsetCmd Put.popErr
  cases h : s.errs with
  | nil => exact hashGet_hashSetMany_not_mem _ _ _ hk
  | cons e tail =>
    cases e with
    | true => rfl
    | false => exact hashGet_hashSetMany_not_mem _ _ _ hk

/-- hset cannot change a field other than the one it writes. -/
theorem hsetCmd_pres (s : Put.PutState) (k' k : Put.LgvKey) (v : Int) (ev : Put.Ev)
    (hk : k ≠ k') :
    Put.hashGet (Put.hsetCmd s k' v ev).1.hash k = Put.hashGet s.hash k := by
  unfold Put.hsetCmd Put.popErr
  cases h : s.errs with
  | nil => rw [hashGet_hashSet, if_neg hk]
  | cons e tail =>
    cases e with
    | true => rfl
    | false => rw [hashGet_hashSet, if_neg hk]

/-- The per-metric walk touches no LGV field of a metric id it does not
carry. -/
theorem walk_hash_preserves (t : Int) (ms : List Metric) (s : Put.PutState)
    (i : Nat) (f : Put.FieldName) (hi : ∀ m ∈ ms, m.id ≠ i) :
    Put.hashGet (Put.updateMetricsWalk t ms s).1.hash (.metricField i f) =
      Put.hashGet s.hash (.metricField i f) := by
  induction ms generalizing s with
  | nil => rfl
  | cons m rest ih =>
    have hm : m.id ≠ i := hi m (List.mem_cons_self _ _)
    have hrest : ∀ m' ∈ rest, m'.id ≠ i := fun m' hm' => hi m' (List.mem_cons_of_mem _ hm')
    have hs1 := hgetCmd_hash s (.metricField m.id .ftick) .lgvRead
    rcases hq : Put.hgetCmd s (.metricField m.id .ftick) .lgvRead with ⟨s1, tr1, r1⟩
    rw [hq] at hs1
    unfold Put.updateMetricsWalk
    rw [hq]
    cases r1 with
    | error e => exact hs1 ▸ rfl
    | ok thatTime =>
      by_cases hgt : Put.storedGtBool thatTime t
      · simp only [hgt, if_true]
        exact hs1 ▸ rfl
      · simp only [hgt, if_false, Bool.false_eq_true]
        have hu2 : Put.hashGet (Put.updateMetric t m s1).1.hash (.metricField i f) =
            Put.hashGet s1.hash (.metricField i f) := by
          refine hmsetCmd_pres _ _ _ fun p hp => ?_
          rcases lgvFields_keys t m p hp with ⟨fn, hfn⟩
          rw [hfn]
          intro hcontra
          exact hm (by injection hcontra)
        rcases hu : Put.updateMetric t m s1 with ⟨s2, tr2, r2⟩
        rw [hu] at hu2
        cases r2 with
        | error e =>
          show Put.hashGet s2.hash _ = _
          rw [hu2, hs1]
        | ok u =>
          show Put.hashGet (Put.updateMetricsWalk t rest s2).1.hash (.metricField i f) =
            Put.hashGet s.hash (.metricField i f)
          rw [ih s2 hrest, hu2, hs1]

/-- After the walk, updateLastGoodValue only ever writes the global ticktime
field, so every per-metric field ends up as the walk left it. -/
theorem updateLGV_hash_metricField (tk : DateTime) (ms : List Metric)
    (s : Put.PutState) (i : Nat) (f : Put.FieldName) :
    Put.hashGet (Put.updateLastGoodValue tk ms s).1.hash (.metricField i f) =
      Put.hashGet
        (Put.updateMetricsWalk ((tk.msVal / 1000 : Nat) : Int) ms s).1.hash
        (.metricField i f) := by
  simp only [Put.updateLastGoodValue]
  by_cases hmod :
      (!(Put.updateMetricsWalk ((tk.msVal / 1000 : Nat) : Int) ms s).2.2.1) = true
  · rw [if_pos hmod]
  · rw [if_neg hmod]
    by_cases hge : Put.storedGeBool
        (match (Put.hgetCmd (Put.updateMetricsWalk ((tk.msVal / 1000 : Nat) : Int) ms s).1
            .globalTicktime .lgvGlobalRead).2.2 with
          | Except.ok v => v
          | Except.error _ => none)
        ((tk.msVal / 1000 : Nat) : Int) = true
    · rw [if_pos hge]
      show Put.hashGet (Put.hgetCmd _ .globalTicktime .lgvGlobalRead).1.hash _ = _
      rw [hgetCmd_hash]
    · rw [if_neg hge]
      show Put.hashGet (Put.hsetCmd (Put.hgetCmd _ .globalTicktime .lgvGlobalRead).1
          .globalTicktime _ .lgvGlobalWrite).1.hash _ = _
      rw [hsetCmd_pres _ _ _ _ _ (by intro hc; cases hc), hgetCmd_hash]

/-- hget emits at most its read event. -/
theorem hgetCmd_trace (s : Put.PutState) (k : Put.LgvKey) (ev : Put.Ev) :
    (Put.hgetCmd s k ev).2.1 = [] ∨ (Put.hgetCmd s k ev).2.1 = [ev] := by
  rcases s with ⟨hh, hb, hd, herrs⟩
  cases herrs with
  | nil => right; rfl
  | cons e tail => cases e
                   · right; rfl
                   · left; rfl

/-- hmset emits at most the LGV write event. -/
theorem hmsetCmd_trace (s : Put.PutState) (kvs : List (Put.LgvKey × Int)) :
    (Put.hmsetCmd s kvs).2.1 = [] ∨ (Put.hmsetCmd s kvs).2.1 = [Put.Ev.lgvWrite] := by
  rcases s with ⟨hh, hb, hd, herrs⟩
  cases herrs with
  | nil => right; rfl
  | cons e tail => cases e
                   · right; rfl
                   · left; rfl

/-- hset emits at most its write event. -/
theorem hsetCmd_trace (s : Put.PutState) (k : Put.LgvKey) (v : Int) (ev : Put.Ev) :
    (Put.hsetCmd s k v ev).2.1 = [] ∨ (Put.hsetCmd s k v ev).2.1 = [ev] := by
  rcases s with ⟨hh, hb, hd, herrs⟩
  cases herrs with
  | nil => right; rfl
  | cons e tail => cases e
                   · right; rfl
                   · left; rfl

/-- Every event of the per-metric walk is an LGV read or an LGV write. -/
theorem walk_trace_events (t : Int) (ms : List Metric) (s : Put.PutState) :
    ∀ e ∈ (Put.updateMetricsWalk t ms s).2.1,
      e = Put.Ev.lgvRead ∨ e = Put.Ev.lgvWrite := by
  induction ms generalizing s with
  | nil => intro e he; cases he
  | cons m rest ih =>
    intro e
    have hq1 := hgetCmd_trace s (.metricField m.id .ftick) .lgvRead
    rcases hq : Put.hgetCmd s (.metricField m.id .ftick) .lgvRead with ⟨s1, tr1, r1⟩
    rw [hq] at hq1
    have htr1 : ∀ x ∈ tr1, x = Put.Ev.lgvRead := by
      rcases hq1 with h | h <;> subst h <;> simp
    unfold Put.updateMetricsWalk
    rw [hq]
    cases r1 with
    | error err => intro he; exact Or.inl (htr1 e he)
    | ok thatTime =>
      by_cases hgt : Put.storedGtBool thatTime t
      · simp only [hgt, if_true]
        intro he
        exact Or.inl (htr1 e he)
      · simp only [hgt, Bool.false_eq_true, if_false]
        have hu1 := hmsetCmd_trace s1 (Put.lgvFields t m)
        rcases hu : Put.hmsetCmd s1 (Put.lgvFields t m) with ⟨s2, tr2, r2⟩
        rw [hu] at hu1
        have htr2 : ∀ x ∈ tr2, x = Put.Ev.lgvWrite := by
          rcases hu1 with h | h <;> subst h <;> simp
        rw [show Put.updateMetric t m s1 = (s2, tr2, r2) from hu]
        cases r2 with
        | error err =>
          intro he
          have he' : e ∈ tr1 ++ tr2 := he
          rcases List.mem_append.mp he' with h | h
          · exact Or.inl (htr1 e h)
          · exact Or.inr (htr2 e h)
        | ok u =>
          intro he
          have he' : e ∈ tr1 ++ tr2 ++ (Put.updateMetricsWalk t rest s2).2.1 := he
          rcases List.mem_append.mp he' with h | h
          · rcases List.mem_append.mp h with h' | h'
            · exact Or.inl (htr1 e h')
            · exact Or.inr (htr2 e h')
          · exact ih s2 e h

/-- Every event of updateLastGoodValue is an LGV read or write (per-metric
or global). -/
theorem lgv_trace_events (tk : DateTime) (ms : List Metric) (s : Put.PutState) :
    ∀ e ∈ (Put.updateLastGoodValue tk ms s).2.1,
      e = Put.Ev.lgvRead ∨ e = Put.Ev.lgvWrite ∨
      e = Put.Ev.lgvGlobalRead ∨ e = Put.Ev.lgvGlobalWrite := by
  intro e
  simp only [Put.updateLastGoodValue]
  have hwalk := walk_trace_events ((tk.msVal / 1000 : Nat) : Int) ms s
  by_cases hmod :
      (!(Put.updateMetricsWalk ((tk.msVal / 1000 : Nat) : Int) ms s).2.2.1) = true
  · rw [if_pos hmod]
    intro he
    rcases hwalk e he with h | h
    · exact Or.inl h
    · exact Or.inr (Or.inl h)
  · rw [if_neg hmod]
    have hg1 := hgetCmd_trace
      (Put.updateMetricsWalk ((tk.msVal / 1000 : Nat) : Int) ms s).1
      .globalTicktime .lgvGlobalRead
    have hgglob : ∀ x ∈ (Put.hgetCmd
        (Put.updateMetricsWalk ((tk.msVal / 1000 : Nat) : Int) ms s).1
        .globalTicktime .lgvGlobalRead).2.1, x = Put.Ev.lgvGlobalRead := by
      rcases hg1 with h | h <;> rw [h] <;> simp
    by_cases hge : Put.storedGeBool
        (match (Put.hgetCmd (Put.updateMetricsWalk ((tk.msVal / 1000 : Nat) : Int) ms s).1
            .globalTicktime .lgvGlobalRead).2.2 with
          | Except.ok v => v
          | Except.error _ => none)
        ((tk.msVal / 1000 : Nat) : Int) = true
    · rw [if_pos hge]
      intro he
      rcases List.mem_append.mp he with h | h
      · rcases hwalk e h with h' | h'
        · exact Or.inl h'
        · exact Or.inr (Or.inl h')
      · exact Or.inr (Or.inr (Or.inl (hgglob e h)))
    · rw [if_neg hge]
      have hs1 := hsetCmd_trace
        (Put.hgetCmd (Put.updateMetricsWalk ((tk.msVal / 1000 : Nat) : Int) ms s).1
          .globalTicktime .lgvGlobalRead).1
        .globalTicktime ((tk.msVal / 1000 : Nat) : Int) .lgvGlobalWrite
      have hsglob : ∀ x ∈ (Put.hsetCmd
          (Put.hgetCmd (Put.updateMetricsWalk ((tk.msVal / 1000 : Nat) : Int) ms s).1
            .globalTicktime .lgvGlobalRead).1
          .globalTicktime ((tk.msVal / 1000 : Nat) : Int) .lgvGlobalWrite).2.1,
          x = Put.Ev.lgvGlobalWrite := by
        rcases hs1 with h | h <;> rw [h] <;> simp
      intro he
      rcases List.mem_append.mp he with h | h
      · rcases List.mem_append.mp h with h' | h'
        · rcases hwalk e h' with h'' | h''
          · exact Or.inl h''
          · exact Or.inr (Or.inl h'')
        · exact Or.inr (Or.inr (Or.inl (hgglob e h')))
      · exact Or.inr (Or.inr (Or.inr (hsglob e h)))

/-- A successful block-index zadd emits exactly the markBlock event. -/
theorem zaddBlkCmd_ok_trace (s : Put.PutState) (b : Nat)
    (h : (Put.zaddBlkCmd s b).2.2 = .ok ()) :
    (Put.zaddBlkCmd s b).2.1 = [Put.Ev.markBlock] := by
  rcases s with ⟨hh, hb, hd, herrs⟩
  cases herrs with
  | nil => rfl
  | cons e tail =>
    cases e with
    | true => exact absurd h (by simp [Put.zaddBlkCmd, Put.popErr])
    | false => rfl

/-- A successful fm:devices zadd emits exactly the addDevice event. -/
theorem zaddDevCmd_ok_trace (s : Put.PutState) (d : Nat)
    (h : (Put.zaddDevCmd s d).2.2 = .ok ()) :
    (Put.zaddDevCmd s d).2.1 = [Put.Ev.addDevice] := by
  rcases s with ⟨hh, hb, hd, herrs⟩
  cases herrs with
  | nil => rfl
  | cons e tail =>
    cases e with
    | true => exact absurd h (by simp [Put.zaddDevCmd, Put.popErr])
    | false => rfl

/-- A successful persistDevState wrote the temp file, possibly renamed it
(the rename failure being dropped), and reports the existence probe. -/
theorem persist_ok_trace (env : Put.PutEnv) (nf : Bool)
    (h : (Put.persistDevState env).2 = .ok nf) :
    ((Put.persistDevState env).1 = [Put.Ev.wroteTmp] ∨
     (Put.persistDevState env).1 = [Put.Ev.wroteTmp, Put.Ev.renamed]) ∧
    nf = env.fileAbsent := by
  rcases env with ⟨se, fa, me, we, re⟩
  cases se with
  | some err => exact absurd h (by simp [Put.persistDevState])
  | none =>
    cases me with
    | some err => exact absurd h (by simp [Put.persistDevState])
    | none =>
      cases we with
      | some err => exact absurd h (by simp [Put.persistDevState])
      | none =>
        cases re with
        | some err =>
          refine ⟨Or.inl rfl, ?_⟩
          simp [Put.persistDevState] at h
          exact h.symm
        | none =>
          refine ⟨Or.inr rfl, ?_⟩
          simp [Put.persistDevState] at h
          exact h.symm

/-! ## Claim C4: amended theorem -/

/-- Claim C4 (amended): in updateLGV with no index-store failures, the gate
skips — preserving the whole hash and abandoning the walk — exactly when the
stored ticktime is strictly greater than the incoming one; when the stored
ticktime is absent, smaller, or exactly equal (a tie), the metric's stored
tuple is overwritten with the incoming fields (last-write-wins at a tie). -/
theorem c4_amended (m : Metric) (rest : List Metric) (tk : DateTime)
    (h : Put.LgvHash) (hrest : ∀ m' ∈ rest, m'.id ≠ m.id) :
    (∀ tt, Put.hashGet h (.metricField m.id .ftick) = some tt →
      ((tk.msVal / 1000 : Nat) : Int) < tt →
      (Put.updateLastGoodValue tk (m :: rest) ⟨h, [], [], []⟩).1.hash = h) ∧
    (Put.storedGtBool (Put.hashGet h (.metricField m.id .ftick))
        ((tk.msVal / 1000 : Nat) : Int) = false →
      Put.hashGet (Put.updateLastGoodValue tk (m :: rest) ⟨h, [], [], []⟩).1.hash
          (.metricField m.id .ftick) = some ((tk.msVal / 1000 : Nat) : Int) ∧
      Put.hashGet (Put.updateLastGoodValue tk (m :: rest) ⟨h, [], [], []⟩).1.hash
          (.metricField m.id .fstatus) = some m.status ∧
      Put.hashGet (Put.updateLastGoodValue tk (m :: rest) ⟨h, [], [], []⟩).1.hash
          (.metricField m.id .fvalue) = some m.value ∧
      Put.hashGet (Put.updateLastGoodValue tk (m :: rest) ⟨h, [], [], []⟩).1.hash
          (.metricField m.id .fscale) = some m.scale) := by
  constructor
  · intro tt hstored hlt
    have hgt : Put.storedGtBool
        (Put.hashGet (⟨h, [], [], []⟩ : Put.PutState).hash (.metricField m.id .ftick))
        ((tk.msVal / 1000 : Nat) : Int) = true := by
      show Put.storedGtBool (Put.hashGet h (.metricField m.id .ftick)) _ = true
      rw [hstored]
      simpa [Put.storedGtBool] using hlt
    simp only [Put.updateLastGoodValue, Put.updateMetricsWalk, Put.hgetCmd, Put.popErr, hgt]
    rfl
  · intro hgt
    have hwalk : ∀ f : Put.FieldName,
        Put.hashGet (Put.updateLastGoodValue tk (m :: rest) ⟨h, [], [], []⟩).1.hash
            (.metricField m.id f) =
          Put.hashGet (Put.hashSetMany h (Put.lgvFields ((tk.msVal / 1000 : Nat) : Int) m))
            (.metricField m.id f) := by
      intro f
      rw [updateLGV_hash_metricField]
      simp only [Put.updateMetricsWalk, Put.hgetCmd, Put.popErr, hgt,
        Bool.false_eq_true, if_false, Put.updateMetric, Put.hmsetCmd]
      show Put.hashGet (Put.updateMetricsWalk _ rest
          ⟨Put.hashSetMany h (Put.lgvFields _ m), [], [], []⟩).1.hash _ = _
      exact walk_hash_preserves _ rest _ m.id f hrest
    rcases lgvFields_overwrite h ((tk.msVal / 1000 : Nat) : Int) m with
      ⟨h1, h2, h3, h4, _⟩
    exact ⟨hwalk .ftick ▸ h1, hwalk .fstatus ▸ h2, hwalk .fvalue ▸ h3, hwalk .fscale ▸ h4⟩

/-! ## Projection entry lemmas (for claim C7) -/

theorem insertFileDesc_mem (f g : Proj.BFile) (l : List Proj.BFile) :
    g ∈ Proj.insertFileDesc f l ↔ g = f ∨ g ∈ l := by
  induction l with
  | nil => simp [Proj.insertFileDesc]
  | cons h t ih =>
    unfold Proj.insertFileDesc
    by_cases hle : h.epoch ≤ f.epoch
    · rw [if_pos hle]
      simp only [List.mem_cons]
    · rw [if_neg hle]
      simp only [List.mem_cons, ih]
      tauto

theorem sortFilesDesc_mem (l : List Proj.BFile) (g : Proj.BFile) :
    g ∈ Proj.sortFilesDesc l ↔ g ∈ l := by
  unfold Proj.sortFilesDesc
  induction l with
  | nil => simp
  | cons h t ih => simp [List.foldr_cons, insertFileDesc_mem, ih]

theorem filterAndSort_epoch_le (files : List Proj.BFile) (timeMs : Nat)
    (hte : timeMs / 1000 ≠ 0) :
    ∀ f ∈ Proj.filterAndSortFileList files (some timeMs), f.epoch ≤ timeMs / 1000 := by
  intro f hf
  unfold Proj.filterAndSortFileList at hf
  simp only [] at hf
  rw [sortFilesDesc_mem] at hf
  have hp := List.of_mem_filter hf
  simp only [Option.map] at hp
  cases hdat : f.isDat with
  | false => simp [hdat] at hp
  | true =>
    simp [hdat] at hp
    rcases hp with h | h
    · exact absurd h hte
    · exact h

theorem copyMetrics_entries (f : Proj.BFile) (M : List Nat)
    (copies : List Proj.ProjMetric)
    (hok : Proj.copyMetricsFromFile f M = .ok copies) (hM : M ≠ []) :
    ∀ x ∈ copies, x.ticktime = f.epoch ∧ x.id ∈ M := by
  unfold Proj.copyMetricsFromFile at hok
  cases hc : f.content with
  | none =>
    rw [hc] at hok
    exact absurd hok (by simp)
  | some ms =>
    rw [hc] at hok
    simp only [Except.ok.injEq] at hok
    subst hok
    intro x hx
    rcases List.mem_map.mp hx with ⟨m, hm, rfl⟩
    have hp := List.of_mem_filter hm
    refine ⟨rfl, ?_⟩
    cases M with
    | nil => exact absurd rfl hM
    | cons a t =>
      simp only [List.isEmpty_cons, Bool.false_or] at hp
      simpa using hp

theorem mergeCopy_pred (P : Proj.ProjMetric → Prop) :
    ∀ (copies result : List Proj.ProjMetric) (resolved : List Nat),
      (∀ x ∈ result, P x) → (∀ x ∈ copies, P x) →
      ∀ x ∈ (Proj.mergeCopy result resolved copies).1, P x := by
  intro copies
  induction copies with
  | nil =>
    intro result resolved hr _ x hx
    exact hr x hx
  | cons m rest ih =>
    intro result resolved hr hc x hx
    unfold Proj.mergeCopy at hx
    by_cases hmem : m.id ∈ resolved
    · rw [if_pos hmem] at hx
      exact ih result resolved hr (fun y hy => hc y (List.mem_cons_of_mem _ hy)) x hx
    · rw [if_neg hmem] at hx
      refine ih _ _ ?_ (fun y hy => hc y (List.mem_cons_of_mem _ hy)) x hx
      intro y hy
      rcases List.mem_append.mp hy with h | h
      · exact hr y h
      · rcases List.mem_singleton.mp h with rfl
        exact hc y (List.mem_cons_self _ _)

theorem walkFiles_pred (P : Proj.ProjMetric → Prop) (M : List Nat) :
    ∀ (files : List Proj.BFile) (result : List Proj.ProjMetric) (resolved : List Nat),
      (∀ x ∈ result, P x) →
      (∀ f ∈ files, ∀ copies, Proj.copyMetricsFromFile f M = .ok copies →
        ∀ x ∈ copies, P x) →
      ∀ x ∈ (Proj.walkFiles M files result resolved).1, P x := by
  intro files
  induction files with
  | nil =>
    intro result resolved hr _ x hx
    exact hr x hx
  | cons f rest ih =>
    intro result resolved hr hf x hx
    unfold Proj.walkFiles at hx
    cases hcp : Proj.copyMetricsFromFile f M with
    | error e =>
      rw [hcp] at hx
      simp only [] at hx
      by_cases hlen : resolved.length < M.length
      · rw [if_pos hlen] at hx
        exact ih result resolved hr (fun g hg => hf g (List.mem_cons_of_mem _ hg)) x hx
      · rw [if_neg hlen] at hx
        exact hr x hx
    | ok copies =>
      rw [hcp] at hx
      simp only [] at hx
      rcases hm : Proj.mergeCopy result resolved copies with ⟨r1, s1⟩
      rw [hm] at hx
      simp only [] at hx
      have hr1 : ∀ y ∈ r1, P y := by
        have h := mergeCopy_pred P copies result resolved hr
          (hf f (List.mem_cons_self _ _) copies hcp)
        rw [hm] at h
        exact h
      by_cases hlen : s1.length < M.length
      · rw [if_pos hlen] at hx
        exact ih r1 s1 hr1 (fun g hg => hf g (List.mem_cons_of_mem _ hg)) x hx
      · rw [if_neg hlen] at hx
        exact hr1 x hx

theorem doProj_entries (st : Proj.PStore) (timeMs : Nat) (M : List Nat)
    (hM : M ≠ []) (hte : timeMs / 1000 ≠ 0) :
    ∀ (bl : List Nat) (result : List Proj.ProjMetric),
      (∀ x ∈ result, x.ticktime ≤ timeMs / 1000 ∧ x.id ∈ M) →
      ∀ x ∈ (Proj.doProjectingInBlocks st timeMs M bl result).1,
        x.ticktime ≤ timeMs / 1000 ∧ x.id ∈ M := by
  intro bl
  induction bl with
  | nil =>
    intro result hr x hx
    exact hr x hx
  | cons b rest ih =>
    intro result hr x hx
    unfold Proj.doProjectingInBlocks at hx
    cases hob : Proj.openBlock st b with
    | error e =>
      rw [hob] at hx
      exact hr x hx
    | ok files0 =>
      rw [hob] at hx
      simp only [] at hx
      have himp : ∀ y ∈ Proj.projectMetricsFromSortedFiles
          (Proj.filterAndSortFileList files0 (some timeMs)) M result,
          y.ticktime ≤ timeMs / 1000 ∧ y.id ∈ M := by
        refine walkFiles_pred _ M _ result _ hr ?_
        intro f hfmem copies hcp y hy
        have h1 := copyMetrics_entries f M copies hcp hM y hy
        exact ⟨h1.1.symm ▸ filterAndSort_epoch_le files0 timeMs hte f hfmem, h1.2⟩
      by_cases hfin : (M.isEmpty || decide ((Proj.projectMetricsFromSortedFiles
          (Proj.filterAndSortFileList files0 (some timeMs)) M result).length =
            M.length)) = true
      · rw [if_pos hfin] at hx
        exact himp x hx
      · rw [if_neg hfin] at hx
        rcases hd : Proj.doProjectingInBlocks st timeMs M rest
            (Proj.projectMetricsFromSortedFiles
              (Proj.filterAndSortFileList files0 (some timeMs)) M result)
          with ⟨r2, op2⟩
        rw [hd] at hx
        simp only [] at hx
        have h2 := ih (Proj.projectMetricsFromSortedFiles
          (Proj.filterAndSortFileList files0 (some timeMs)) M result) himp
        rw [hd] at h2
        exact h2 x hx

/-! ## Claim C7: counterexample and amended theorem -/

/-- Claim C7 counterexample: projecting metrics [1, 99] for the device of
projStore0 at 2023-11-14T17:00:00Z returns metric 1 with ticktime
1699923600, taken from the oldest live block, even though the walk also
opened the archived block 2023111405 whose record holds metric 1 under the
strictly greater ticktime 1699956000, still at most floor(t/1000): the
archive phase runs after the live walk and its fresher copy is masked by
the already-resolved id. -/
theorem c7_counterexample :
    (Proj.projectMetrics 2 projStore0 dtQ [1, 99]).1 =
      [⟨1, 0, 5, 0, none, 1699923600⟩] ∧
    (Proj.projectMetrics 2 projStore0 dtQ [1, 99]).2 =
      [2023111408, 2023111400, 2023111405] ∧
    (⟨1699956000, true, some [⟨1, 0, 6, 0, none⟩]⟩ : Proj.BFile) ∈
      Proj.dirOf projStore0 2023111405 ∧
    Proj.copyMetricsFromFile ⟨1699956000, true, some [⟨1, 0, 6, 0, none⟩]⟩ [1, 99] =
      .ok [⟨1, 0, 6, 0, none, 1699956000⟩] ∧
    1699923600 < 1699956000 ∧ 1699956000 ≤ dtQ.msVal / 1000 := by
  decide

/-- Claim C7 (amended): with a non-empty request list and a nonzero epoch
bound floor(t/1000), every metric returned by projectMetrics carries one of
the requested ids and a ticktime at most floor(t/1000); the claim's further
no-fresher-record-in-any-walked-block property does not hold (the archive
phase walks blocks that may be younger than a live block which already
resolved the id, and the fresher copy is dropped). -/
theorem c7_amended (bh : Nat) (st : Proj.PStore) (time : DateTime)
    (M : List Nat) (hM : M ≠ []) (hte : time.msVal / 1000 ≠ 0) :
    ∀ x ∈ (Proj.projectMetrics bh st time M).1,
      x.ticktime ≤ time.msVal / 1000 ∧ x.id ∈ M := by
  intro x hx
  unfold Proj.projectMetrics at hx
  rcases h1 : Proj.doProjectingInBlocks st time.msVal M
      (Proj.getBlocksBackwards bh st time false) [] with ⟨r1, op1⟩
  rw [h1] at hx
  simp only [] at hx
  have hr1 : ∀ y ∈ r1, y.ticktime ≤ time.msVal / 1000 ∧ y.id ∈ M := by
    have h := doProj_entries st time.msVal M hM hte
      (Proj.getBlocksBackwards bh st time false) [] (by simp)
    rw [h1] at h
    exact h
  by_cases hcond : r1.length ≠ 0 ∧ r1.length = M.length
  · rw [if_pos hcond] at hx
    exact hr1 x hx
  · rw [if_neg hcond] at hx
    rcases h2 : Proj.doProjectingInBlocks st time.msVal M
        (Proj.getBlocksBackwards bh st time true) r1 with ⟨r2, op2⟩
    rw [h2] at hx
    simp only [] at hx
    have h := doProj_entries st time.msVal M hM hte
      (Proj.getBlocksBackwards bh st time true) r1 hr1
    rw [h2] at h
    exact h x hx

/-- Witness for the amended C7 at the concrete projection fixture. -/
theorem c7_amended_witness :
    ([1, 99] : List Nat) ≠ [] ∧ dtQ.msVal / 1000 ≠ 0 ∧
    ∀ x ∈ (Proj.projectMetrics 2 projStore0 dtQ [1, 99]).1,
      x.ticktime ≤ dtQ.msVal / 1000 ∧ x.id ∈ [1, 99] :=
  ⟨by decide, by decide, c7_amended 2 projStore0 dtQ [1, 99] (by decide) (by decide)⟩

/-! ## Claim C5: amended theorem -/

/-- Claim C5 (amended): within a single successful putDeviceState call the
effects occur in the order temp-file write and rename attempt, then the
last-good-value reads and writes, then the block-index add, then — exactly
when the record file was new — the fm:devices insert.  A successful return
implies the temp-file write, the block-index add and (for a new file) the
fm:devices add succeeded; it does not imply the rename succeeded (C2) nor
that every LGV index command succeeded (C3). -/
theorem c5_amended (env : Put.PutEnv) (bh devid : Nat) (tk : DateTime)
    (ds : DevState) (s : Put.PutState)
    (hok : (Put.putDevState env bh devid tk ds s).2.2 = .ok ()) :
    ∃ trW trL trD,
      (Put.putDevState env bh devid tk ds s).2.1 =
        trW ++ trL ++ [Put.Ev.markBlock] ++ trD ∧
      (trW = [Put.Ev.wroteTmp] ∨ trW = [Put.Ev.wroteTmp, Put.Ev.renamed]) ∧
      (∀ e ∈ trL, e = Put.Ev.lgvRead ∨ e = Put.Ev.lgvWrite ∨
        e = Put.Ev.lgvGlobalRead ∨ e = Put.Ev.lgvGlobalWrite) ∧
      (trD = [] ∨ trD = [Put.Ev.addDevice]) ∧
      (env.fileAbsent = true → trD = [Put.Ev.addDevice]) := by
  unfold Put.putDevState Put.saveDevStateAndUpdateIndex at hok ⊢
  rcases hp : Put.persistDevState env with ⟨trW, rP⟩
  rw [hp] at hok
  cases rP with
  | error e => simp at hok
  | ok nf =>
    simp only [] at hok
    have hper := persist_ok_trace env nf (by rw [hp])
    have htrL := lgv_trace_events tk ds.metrics s
    rcases hl : Put.updateLastGoodValue tk ds.metrics s with ⟨s1, trL, rL⟩
    rw [hl] at hok htrL
    cases rL with
    | error e => simp at hok
    | ok u =>
      simp only [] at hok
      rcases hm : Put.markTime bh tk s1 with ⟨s2, trM, rM⟩
      rw [hm] at hok
      cases rM with
      | error e => simp at hok
      | ok u2 =>
        rw [hp] at hper
        have hperW : trW = [Put.Ev.wroteTmp] ∨ trW = [Put.Ev.wroteTmp, Put.Ev.renamed] :=
          hper.1
        have hperF : nf = env.fileAbsent := hper.2
        have htrM : trM = [Put.Ev.markBlock] := by
          have hz := zaddBlkCmd_ok_trace s1 (timeToBlockindex bh tk) (by
            rw [show Put.zaddBlkCmd s1 (timeToBlockindex bh tk) =
              (s2, trM, Except.ok u2) from hm])
          rw [show Put.zaddBlkCmd s1 (timeToBlockindex bh tk) =
            (s2, trM, Except.ok u2) from hm] at hz
          exact hz
        cases nf with
        | false =>
          refine ⟨trW, trL, [], ?_, hperW, fun e he => htrL e he, Or.inl rfl, ?_⟩
          · simp only []
            rw [hm]
            show trW ++ trL ++ trM = _
            rw [htrM]
            simp
          · intro hfa
            rw [← hperF] at hfa
            simp at hfa
        | true =>
          simp only [] at hok
          have hd0 := zaddDevCmd_ok_trace s2 devid
          rcases hd : Put.zaddDevCmd s2 devid with ⟨s3, trD0, rD⟩
          rw [hd] at hok hd0
          cases rD with
          | error e => simp at hok
          | ok u3 =>
            have htrD : trD0 = [Put.Ev.addDevice] := hd0 rfl
            refine ⟨trW, trL, trD0, ?_, hperW, fun e he => htrL e he,
              Or.inr htrD, fun _ => htrD⟩
            simp only []
            rw [hm]
            show (match Put.zaddDevCmd s2 devid with
              | (s3, trD, r) => (s3, trW ++ trL ++ trM ++ trD, r)).2.1 = _
            rw [hd]
            show trW ++ trL ++ trM ++ trD0 = _
            rw [htrM]

/-- Witness for the amended C5: the fully successful run of the C5
counterexample fixture satisfies the amended ordering. -/
theorem c5_amended_witness :
    ∃ trW trL trD,
      (Put.putDevState ⟨none, true, none, none, none⟩ 2 7 dt0 devState0
          ⟨[], [], [], []⟩).2.1 =
        trW ++ trL ++ [Put.Ev.markBlock] ++ trD ∧
      (trW = [Put.Ev.wroteTmp] ∨ trW = [Put.Ev.wroteTmp, Put.Ev.renamed]) ∧
      (∀ e ∈ trL, e = Put.Ev.lgvRead ∨ e = Put.Ev.lgvWrite ∨
        e = Put.Ev.lgvGlobalRead ∨ e = Put.Ev.lgvGlobalWrite) ∧
      (trD = [] ∨ trD = [Put.Ev.addDevice]) ∧
      ((⟨none, true, none, none, none⟩ : Put.PutEnv).fileAbsent = true →
        trD = [Put.Ev.addDevice]) :=
  c5_amended ⟨none, true, none, none, none⟩ 2 7 dt0 devState0 ⟨[], [], [], []⟩
    (by decide)

/-- Witness for the amended C4 at concrete inputs: the preserved branch with
a strictly greater stored ticktime, and the overwrite branch at the tie of
lgvHash0 and dtTie. -/
theorem c4_amended_witness :
    (∀ tt, Put.hashGet lgvHash0 (.metricField 1 .ftick) = some tt →
      ((dtTie.msVal / 1000 : Nat) : Int) < tt →
      (Put.updateLastGoodValue dtTie [metricTie] ⟨lgvHash0, [], [], []⟩).1.hash = lgvHash0) ∧
    (Put.storedGtBool (Put.hashGet lgvHash0 (.metricField 1 .ftick))
        ((dtTie.msVal / 1000 : Nat) : Int) = false →
      Put.hashGet (Put.updateLastGoodValue dtTie [metricTie] ⟨lgvHash0, [], [], []⟩).1.hash
          (.metricField 1 .ftick) = some ((dtTie.msVal / 1000 : Nat) : Int) ∧
      Put.hashGet (Put.updateLastGoodValue dtTie [metricTie] ⟨lgvHash0, [], [], []⟩).1.hash
          (.metricField 1 .fstatus) = some metricTie.status ∧
      Put.hashGet (Put.updateLastGoodValue dtTie [metricTie] ⟨lgvHash0, [], [], []⟩).1.hash
          (.metricField 1 .fvalue) = some metricTie.value ∧
      Put.hashGet (Put.updateLastGoodValue dtTie [metricTie] ⟨lgvHash0, [], [], []⟩).1.hash
          (.metricField 1 .fscale) = some metricTie.scale) :=
  c4_amended metricTie [] dtTie lgvHash0 (by decide)

end Ffc
